import Mathlib

/-!
Verification of the tabular core of `src/extras/plotter/plot_builder.py`.

The Python program is shallowly embedded: Python floats are modelled as
exact rationals, the global `g_err` accumulator is threaded as explicit
state of type `ℝ × ℕ`, and fallible code (division by the length of an
empty list, out-of-range indexing, failed `assert`s, the fatal
header-mismatch `exit(1)`) is modelled with `Option`/`Except`.
String-level details that the claims never touch (the regex `prettify`
applied to header tokens while parsing) are abstracted: the file model
carries the already-prettified names, exactly as they enter the header
comparison and the table.
-/

set_option maxRecDepth 8000

/-- EPSILON = 0.01, the error admitted for floats (line 9). -/
def EPSILON : ℚ := 1/100

/-- BUCKETS = 50 (line 10, default value, claims use the default). -/
def BUCKETS : ℕ := 50

/-- avg: average of a list of floats, `sum(l)/float(len(l))` (lines 63-64).
In ℚ the division by zero that Python raises on an empty list yields the
junk value 0; all uses below either guard emptiness through `Option` or
prove the list non-empty. -/
def avg (l : List ℚ) : ℚ := l.sum / (l.length : ℚ)

/-- error: relative deviation of a list of floats (lines 67-73), as a state
transformer on the process-wide accumulator `g_err`. The float sum
`g_err[0]` is modelled losslessly as the list of radicands pushed into it
(its real value is recovered by `gErrValue` below, keeping the update
executable even though exact real square roots are not computable).
If `El2 == 0` the function returns without touching the accumulator;
otherwise it accumulates `sqrt(max(Vl/El2 - 1, 0))` with `Vl` the mean
square, and increments the call count `g_err[1]`. -/
def errAcc (l : List ℚ) (El2 : ℚ) (g : List ℚ × ℕ) : List ℚ × ℕ :=
  if El2 = 0 then g
  else (g.1 ++ [max (avg (l.map (fun x => x^2)) / El2 - 1) 0], g.2 + 1)

/-- Value of the modelled `g_err[0]` float: the sum of the square roots of
the accumulated radicands. -/
noncomputable def gErrValue (g : List ℚ × ℕ) : ℝ :=
  (g.1.map (fun r => Real.sqrt (r : ℝ))).sum

/-- qntErr: the effect of one call `qnt(l, q)` (lines 76-78) on the global
accumulator: `El = avg(l); error(l, El**2)`. The effect does not depend on
`q`. -/
def qntErr (l : List ℚ) (g : List ℚ × ℕ) : List ℚ × ℕ := errAcc l ((avg l)^2) g

/-- Aggregator kind: the literal tag 'm' (mean) or a quantile fraction. -/
inductive AggKind where
  | m : AggKind
  | q (v : ℚ) : AggKind
deriving DecidableEq

/-- Rational order as a Bool relation, for `list.sort()`. -/
def qle (a b : ℚ) : Bool := decide (a ≤ b)

/-- qnt: quantile or mean of a list of floats (lines 76-89), value part.
On an empty list Python raises ZeroDivisionError inside `avg` (computed
first for every kind), modelled as `none`. For a numeric `q` the list is
sorted, then: if `n*q <= 0.5` return the first element, if `n*q >= n-0.5`
return the last, otherwise interpolate between ranks `i = int(n*q - 0.5)`
and `i+1` with weight `f = n*q - 0.5 - i` (for `0.5 < n*q` the Python
`int` truncation equals the floor). -/
def qnt (l : List ℚ) (k : AggKind) : Option ℚ :=
  if l.length = 0 then none else
  match k with
  | AggKind.m => some (avg l)
  | AggKind.q v =>
    let s := l.mergeSort qle
    let n : ℚ := (l.length : ℚ)
    if n * v ≤ 1/2 then s.head?
    else if n - 1/2 ≤ n * v then s.getLast?
    else do
      let i : ℕ := (⌊n * v - 1/2⌋).toNat
      let f : ℚ := n * v - 1/2 - (i : ℚ)
      let a ← s.get? i
      let b ← s.get? (i+1)
      pure (a * (1 - f) + b * f)

/-- farenough: checks if floats are reasonably different (lines 103-104):
`abs(x-y) > max(1e-4, (x+y)/2e2)`. -/
def farenough (x y : ℚ) : Bool := decide (|x - y| > max (1/10000) ((x + y)/200))

/-- Claim C2 formalised from the spec words, for comparison with the source
`farenough`: two values are distinguishable when their difference exceeds
`max(1e-4, average-magnitude/200)` with average-magnitude the mean of the
two magnitudes; the claim itself equates this with
`max(1e-4, ((x+y)/2)/200)`. -/
def specFarenough (x y : ℚ) : Bool := decide (|x - y| > max (1/10000) (((x + y)/2)/200))

example : avg [1, 2, 3] = 2 := by norm_num [avg]
example : qnt [3, 1, 2] AggKind.m = some 2 := by with_unfolding_all decide
example : qnt [3, 1, 2] (AggKind.q 0) = some 1 := by with_unfolding_all decide
example : qnt [3, 1, 2] (AggKind.q 1) = some 3 := by with_unfolding_all decide
example : qnt [3, 1, 2] (AggKind.q (1/2)) = some 2 := by with_unfolding_all decide
example : qnt [1, 2, 3, 4] (AggKind.q (1/2)) = some (5/2) := by with_unfolding_all decide
example : farenough 1 0 = true := by with_unfolding_all decide
example : farenough (1007/10) 100 = false := by with_unfolding_all decide
example : specFarenough (1007/10) 100 = true := by with_unfolding_all decide

/-- Python's lexicographic comparison of the 2-element rows sorted by
`self.data.sort()` in `bucketize` (line 220). Rows are (x, y) pairs. -/
def rowLe (a b : ℚ × ℚ) : Bool := decide (a.1 < b.1 ∨ (a.1 = b.1 ∧ a.2 ≤ b.2))

/-- Sorted list of the distinct x values,
`sorted(set([r[0] for r in self.data]))` (line 221). -/
def distinctSorted (data : List (ℚ × ℚ)) : List ℚ :=
  ((data.map Prod.fst).dedup).mergeSort qle

/-- The coalescing walk of `bucketize` (lines 222-225): starting from the
first distinct value, append each next value only when it is far enough
from the last kept one. `last` is `tmp[-1]`. -/
def coalesceAux (last : ℚ) : List ℚ → List ℚ
  | [] => []
  | x :: xs => if farenough x last then x :: coalesceAux x xs else coalesceAux last xs

/-- tmp = ix[:1]; for x in ix[1:]: if farenough(x, tmp[-1]): tmp.append(x). -/
def coalesce : List ℚ → List ℚ
  | [] => []
  | x :: xs => x :: coalesceAux x xs

/-- bisect_left(self.data, [x, float('-inf')]) on the sorted row list
(line 226): the index of the first row whose first component is at least
`x` (every second component exceeds -inf, so the comparison with
[x, -inf] only looks at the first component). -/
def bl (sd : List (ℚ × ℚ)) (x : ℚ) : ℕ :=
  (sd.takeWhile (fun r => decide (r.1 < x))).length

/-- bisect_left(ix, idx) on the sorted index list (line 233). -/
def blN (ix : List ℕ) (idx : ℕ) : ℕ :=
  (ix.takeWhile (fun a => decide (a < idx))).length

/-- One iteration of the boundary-compression loop of `bucketize`
(lines 231-236), for `i` in `xrange(1, BUCKETS)`:
`idx = i*len(self.data)/BUCKETS` (integer division),
`i = max(bisect_left(ix, idx), 1)`, `il, ir = ix[i-1:i+1]` (the unpacking
raises when the slice has fewer than two elements, modelled as `none`),
`assert(ir > l[-1])` (failure modelled as `none`), then append `il` if
`il > l[-1] and idx-il <= ir-idx` else `ir`. -/
def compressStep (n : ℕ) (ix : List ℕ) (l : List ℕ) (i : ℕ) : Option (List ℕ) :=
  let idx := i * n / BUCKETS
  let j := max (blN ix idx) 1
  match ix.get? (j-1), ix.get? j, l.getLast? with
  | some il, some ir, some last =>
    if last < ir then
      some (l ++ [if last < il ∧ (idx : ℤ) - (il : ℤ) ≤ (ir : ℤ) - (idx : ℤ) then il else ir])
    else none
  | _, _, _ => none

/-- The bucket boundary positions chosen by `bucketize` (lines 220-237),
including the final `len(self.data)`: if fewer than `2*BUCKETS` coalesced
distinct positions exist they are all used, otherwise `BUCKETS` positions
are chosen by the compression loop starting from `[0]`. -/
def boundaries? (data : List (ℚ × ℚ)) : Option (List ℕ) :=
  let sd := data.mergeSort rowLe
  let tmp := coalesce (distinctSorted data)
  let ix := tmp.map (bl sd)
  (if ix.length < 2*BUCKETS then some ix
   else (List.range' 1 (BUCKETS - 1)).foldlM (compressStep sd.length ix) [0]).map
    (fun l => l ++ [sd.length])

/-- The final loop of `bucketize` (lines 238-241): for each pair of
consecutive boundaries, slice `self.data[l[i]:l[i+1]]` out of the sorted
data and emit `[qnt(xs, 'm'), aggr(ys)]`, with `aggr` an `Aggregator`,
i.e. `qnt(ys, kind)` (lines 287-288). -/
def bucketsGo (sd : List (ℚ × ℚ)) (kind : AggKind) (a : ℕ) :
    List ℕ → Option (List (ℚ × ℚ))
  | [] => some []
  | b :: rest => do
      let xy := (sd.drop a).take (b - a)
      let x ← qnt (xy.map Prod.fst) AggKind.m
      let y ← qnt (xy.map Prod.snd) kind
      let r ← bucketsGo sd kind b rest
      pure ((x, y) :: r)

/-- Entry point of the final loop: the first boundary (if any) seeds the
walk over consecutive boundary pairs. -/
def bucketsOf? (sd : List (ℚ × ℚ)) (kind : AggKind) : List ℕ → Option (List (ℚ × ℚ))
  | [] => some []
  | a :: rest => bucketsGo sd kind a rest

/-- DB.bucketize (lines 218-242): value result. The state effect of the
in-place `self.data.sort()` is exposed separately by `bucketizeRun`. -/
def bucketize? (data : List (ℚ × ℚ)) (kind : AggKind) : Option (List (ℚ × ℚ)) := do
  let l ← boundaries? data
  bucketsOf? (data.mergeSort rowLe) kind l

/-- DB.bucketize as a state transformer on `self.data`: the call both
returns the point list and leaves `self.data` sorted in place
(`self.data.sort()`, line 220, is the only write to `self` in
`split`, `filter` and `bucketize`). -/
def bucketizeRun (data : List (ℚ × ℚ)) (kind : AggKind) :
    Option (List (ℚ × ℚ)) × List (ℚ × ℚ) :=
  (bucketize? data kind, data.mergeSort rowLe)

example : bucketize? [] AggKind.m = some [] := by with_unfolding_all decide
example : boundaries? [] = some [0] := by with_unfolding_all decide
example : bucketize? [(0, 5), (1, 7)] AggKind.m = some [(0, 5), (1, 7)] := by
  with_unfolding_all decide
example : bucketize? [(0, 5), (0, 7)] AggKind.m = some [(0, 6)] := by
  with_unfolding_all decide
example : bucketize? [(100, 5), (1003/10, 7)] AggKind.m = some [(2003/20, 6)] := by
  with_unfolding_all decide

/-- Table: an ordered column-name list `self.hdr` plus a list of numeric
rows `self.data` (class DB, lines 117-128). -/
structure DB where
  hdr : List String
  data : List (List ℚ)
deriving DecidableEq

/-- The DB constructor applied to a plain header list (line 118-124): when
`files[0]` does not match the regex `\.txt$` the argument is taken as the
header of a fresh empty table. When the list is empty, `files[0]` raises
IndexError; when the first entry does end in ".txt" the constructor
instead starts file ingestion (`experiment_name` plus `read` on each
entry, unavailable file system IO). Both are modelled as `none`. -/
def mkDB? (files : List String) : Option DB :=
  match files.head? with
  | some h => if h.endsWith ".txt" then none else some ⟨files, []⟩
  | none => none

/-- Comparator of a Filter: one of `<`, `=`, `>` (`Filter.parse` only
builds these three, lines 254-257). -/
inductive FOp where
  | lt : FOp
  | eq : FOp
  | gt : FOp
deriving DecidableEq

/-- Filter: column name + comparator + numeric threshold (lines 245-249).
The stored `var` is the already-prettified name. Named `Filt` because
`Filter` is taken by Mathlib. -/
structure Filt where
  var : String
  op : FOp
  val : ℚ
deriving DecidableEq

/-- Filter.compile (lines 263-270): `i = hdr.index(self.var)` raises
ValueError when the variable is absent (modelled as `none`); otherwise the
result is a row predicate with the fixed tolerance EPSILON. Evaluating the
predicate on a row shorter than `i+1` raises IndexError, modelled by an
`Option Bool` result per row. -/
def Filt.compile? (fl : Filt) (hdr : List String) : Option (List ℚ → Option Bool) :=
  if fl.var ∈ hdr then
    some (fun r => (r.get? (hdr.indexOf fl.var)).map (fun x =>
      match fl.op with
      | FOp.lt => decide (x < fl.val + EPSILON)
      | FOp.eq => decide (fl.val - EPSILON < x ∧ x < fl.val + EPSILON)
      | FOp.gt => decide (fl.val - EPSILON < x)))
  else none

/-- Filter.compile_all (lines 272-275): compile every filter, and AND the
results; the list comprehension `[t(r) for t in c]` evaluates every
compiled test before `all`. -/
def compileAll? (l : List Filt) (hdr : List String) : Option (List ℚ → Option Bool) :=
  (l.mapM (fun fl => Filt.compile? fl hdr)).map
    (fun cs => fun r => (cs.mapM (fun (t : List ℚ → Option Bool) => t r)).map (fun bs => bs.all id))

/-- The row loop of `DB.filter` without projection (lines 201-205): keep
the rows passing the test, propagating a per-row test failure. -/
def rowsFilter? (p : List ℚ → Option Bool) : List (List ℚ) → Option (List (List ℚ))
  | [] => some []
  | r :: rs => do
      let b ← p r
      let rest ← rowsFilter? p rs
      pure (if b then r :: rest else rest)

/-- DB.filter with `vars = None` (lines 196-205), the no-projection form
used by claim C8: with no filters the very same table is returned;
otherwise the compiled conjunction selects rows into a fresh
`DB(self.hdr)`. -/
def DB.filter? (db : DB) (F : List Filt) : Option DB :=
  if F = [] then some db
  else do
    let p ← compileAll? F db.hdr
    let res ← mkDB? db.hdr
    let rows ← rowsFilter? p db.data
    pure { res with data := rows }

/-- DB.filter as a state transformer on the receiver: the source only ever
appends to the fresh result table (`res.data.append`), never to
`self.data`, so the post-state is the receiver unchanged. -/
def DB.filterRun (db : DB) (F : List Filt) : Option DB × DB :=
  (db.filter? F, db)

/-- cols = [self.hdr.index(v) for v in vars] (line 180); with every `v`
present (claim hypothesis) `List.indexOf` is Python's `index`. -/
def colsOf (hdr vars : List String) : List ℕ := vars.map (fun v => hdr.indexOf v)

/-- ncol = [i for i in xrange(len(self.hdr)) if i not in cols] (line 181). -/
def ncolOf (hdr vars : List String) : List ℕ :=
  (List.range hdr.length).filter (fun i => !((colsOf hdr vars).contains i))

/-- hdrs = [self.hdr[c] for c in ncol] (line 182). -/
def hdrsOf (hdr vars : List String) : List String :=
  (ncolOf hdr vars).map (fun c => hdr.getD c "")

/-- x = tuple(r[c] for c in cols) (line 186). -/
def keyRow (hdr vars : List String) (r : List ℚ) : List ℚ :=
  (colsOf hdr vars).map (fun c => r.getD c 0)

/-- y = [r[c] for c in ncol] (line 189). -/
def projRow (hdr vars : List String) (r : List ℚ) : List ℚ :=
  (ncolOf hdr vars).map (fun c => r.getD c 0)

/-- One row of the split loop (lines 190-192): `if x not in d:
d[x] = DB(hdrs)` (the constructor can fail, see `mkDB?`), then
`d[x].data.append(y)`. The dictionary is modelled as an association list
in key-first-occurrence (= Python dict insertion) order. -/
def addRow (hdrs : List String) (x y : List ℚ) :
    List (List ℚ × DB) → Option (List (List ℚ × DB))
  | [] => (mkDB? hdrs).map (fun t => [(x, { t with data := t.data ++ [y] })])
  | (k, t) :: rest =>
      if k = x then some ((k, { t with data := t.data ++ [y] }) :: rest)
      else (addRow hdrs x y rest).map (fun r => (k, t) :: r)

/-- The row loop of `DB.split` (lines 184-192) over all rows. -/
def splitRows? (hdr vars hdrs : List String) (rows : List (List ℚ)) :
    Option (List (List ℚ × DB)) :=
  rows.foldlM (fun d r => addRow hdrs (keyRow hdr vars r) (projRow hdr vars r) d) []

/-- sets: for each grouping column the sorted set of observed values
(lines 183, 186-188, 193). -/
def setsOf (db : DB) (vars : List String) : List (List ℚ) :=
  (colsOf db.hdr vars).map
    (fun c => ((db.data.map (fun r => r.getD c 0)).dedup).mergeSort qle)

/-- DB.split (lines 177-194): an empty grouping list returns the table
itself keyed by the empty tuple; otherwise rows are partitioned by their
grouping-column values, projected onto the remaining columns. -/
def DB.split? (db : DB) (vars : List String) :
    Option (List (List ℚ) × List (List ℚ × DB)) :=
  if vars = [] then some ([], [([], db)])
  else do
    let d ← splitRows? db.hdr vars (hdrsOf db.hdr vars) db.data
    pure (setsOf db vars, d)

/-- DB.split as a state transformer on the receiver: the source only reads
`self.hdr` and `self.data` and appends to the fresh per-group tables, so
the post-state is the receiver unchanged. -/
def DB.splitRun (db : DB) (vars : List String) :
    Option (List (List ℚ) × List (List ℚ × DB)) × DB :=
  (db.split? vars, db)

example : (DB.mk ["t", "e"] [[0, 5], [1, 7], [0, 9]]).split? ["t"] =
    some ([[0, 1]], [([0], DB.mk ["e"] [[5], [9]]), ([1], DB.mk ["e"] [[7]])]) := by
  with_unfolding_all decide
example : (DB.mk ["a", "b"] [[1, 2]]).split? ["a", "b"] = none := by
  with_unfolding_all decide
example : (DB.mk ["t", "e"] [[0, 5], [1, 7]]).filter?
    [Filt.mk "t" FOp.eq 0] = some (DB.mk ["t", "e"] [[0, 5]]) := by
  with_unfolding_all decide

/-- One line of a log file from index 8 on (0-based): either a data line,
already parsed into its space-separated floats, or a line whose first
character is '#' (which terminates ingestion, line 167-168). -/
inductive Line where
  | data (xs : List ℚ)
  | comment
deriving DecidableEq

/-- Test used to mirror `r[0] == '#'`. -/
def isData : Line → Bool
  | Line.data _ => true
  | Line.comment => false

/-- A well-formed (at least 9 lines long) log file as `DB.read` sees it
after string parsing (lines 135-155): `params` are the prettified
parameter names of line 3 paired with their parsed values (booleans
already mapped to 1.0/0.0); `cols` are the prettified measurement column
names of line 6 paired with their kind (`True` iff the raw name ended
with the 11-character suffix `@every_node`); `row8` are the floats of
line 7, used only for the device count; `lines` are the lines from index
8 on. The regex `prettify` is abstracted: name fields hold its output. -/
structure FileModel where
  params : List (String × ℚ)
  cols   : List (String × Bool)
  row8   : List ℚ
  lines  : List Line
deriving DecidableEq

/-- ctot = len(kind) (line 149). -/
def ctot (m : FileModel) : ℕ := m.cols.length

/-- cdev = sum(kind) (line 150). -/
def cdev (m : FileModel) : ℕ := (m.cols.filter (fun c => c.2)).length

/-- cagg = ctot - cdev (line 151). -/
def cagg (m : FileModel) : ℕ := ctot m - cdev m

/-- devnum = 1 if cdev == 0 else (len(rows[7].strip().split(' ')) - cagg) /
cdev (line 152); Python 2 integer division is floor division `Int.fdiv`. -/
def devnum (m : FileModel) : ℤ :=
  if cdev m = 0 then 1
  else Int.fdiv ((m.row8.length : ℤ) - (cagg m : ℤ)) (cdev m : ℤ)

/-- index = [0]; for c in kind: index.append(index[-1] + (devnum if c else
1)) (lines 153-155): the scan of the per-column offsets. -/
def indexL (m : FileModel) : List ℤ :=
  (m.cols.map (fun c => c.2)).scanl (fun acc c => acc + (if c then devnum m else 1)) 0

/-- Python indexing `data[i]` for a non-negative computed index; a
negative index would wrap around in Python but can only arise from
malformed files (negative `devnum`), modelled as failure. -/
def getZ (xs : List ℚ) (i : ℤ) : Option ℚ :=
  if 0 ≤ i then xs.get? i.toNat else none

/-- The per-column access `data[index[i] + d*kind[i]]` (line 171) for
device slot `d` and column `i`. -/
def valAt (m : FileModel) (xs : List ℚ) (d : ℕ) (i : ℕ) : Option ℚ :=
  getZ xs ((indexL m).getD i 0 + (d : ℤ) * (if (m.cols.getD i ("", false)).2 then 1 else 0))

/-- The expansion of one data line (lines 170-175): for each device slot
`d` in `xrange(devnum)` build `t = vals + [data[index[i] + d*kind[i]] for
i in xrange(ctot)]`, then append the device index when per-device columns
exist. The `assert(len(t) == len(hdr))` always holds by construction. -/
def expandLine (m : FileModel) (xs : List ℚ) : Option (List (List ℚ)) :=
  (List.range (devnum m).toNat).mapM (fun d => do
    let vs ← (List.range (ctot m)).mapM (valAt m xs d)
    pure (m.params.map (fun p => p.2) ++ vs ++ (if cdev m ≠ 0 then [(d : ℚ)] else [])))

/-- The data loop of `DB.read` (lines 166-175): process lines in order,
stopping at the first '#' line, collecting the expanded rows. -/
def ingestGo (m : FileModel) : List Line → Option (List (List ℚ))
  | [] => some []
  | Line.comment :: _ => some []
  | Line.data xs :: rest => do
      let rs ← expandLine m xs
      let more ← ingestGo m rest
      pure (rs ++ more)

/-- All rows contributed by one file. -/
def ingestLines (m : FileModel) : Option (List (List ℚ)) := ingestGo m m.lines

/-- Number of data lines before the first '#' line. -/
def numData (m : FileModel) : ℕ := (m.lines.takeWhile isData).length

/-- Decidable well-formedness of one line: data lines carry exactly `f`
floats. -/
def lineOk (f : ℕ) : Line → Prop
  | Line.data xs => xs.length = f
  | Line.comment => True

instance (f : ℕ) (l : Line) : Decidable (lineOk f l) := by
  cases l <;> simp [lineOk] <;> infer_instance

/-- hdr = map(prettify, vars + hdr); ... if cdev: hdr.append('device')
(lines 146-157): the header computed from one file. -/
def computedHdr (m : FileModel) : List String :=
  m.params.map (fun p => p.1) ++ m.cols.map (fun c => c.1) ++
    (if cdev m ≠ 0 then ["device"] else [])

/-- A file as passed to `DB.read`: either shorter than 9 lines (skipped
silently, lines 140-141) or well-formed with parsed content. -/
inductive FileIn where
  | short (name : String)
  | wf (name : String) (m : FileModel)
deriving DecidableEq

/-- Name of a file. -/
def FileIn.name : FileIn → String
  | FileIn.short n => n
  | FileIn.wf n _ => n

/-- The mutable ingestion state of a DB during construction: `self.hdr`,
`self.refile` (the first file ever passed to `read`, lines 136-137) and
`self.data`. -/
structure RState where
  hdr : List String
  refile : Option String
  data : List (List ℚ)
deriving DecidableEq

/-- Failure modes of `DB.read`: the fatal header mismatch (lines 161-165),
which prints the two file names and the two set differences of the
headers and calls `exit(1)`, and an out-of-range data access
(IndexError). -/
inductive ReadErr where
  | mismatch (file : String) (refile : String)
      (extra : Finset String) (missing : Finset String)
  | badLine
deriving DecidableEq

/-- Decidable equality of `Except` results, for evaluating ingestion
outcomes on concrete inputs. -/
instance {e a : Type} [DecidableEq e] [DecidableEq a] : DecidableEq (Except e a) := fun x y =>
  match x, y with
  | Except.error u, Except.error v => decidable_of_iff (u = v) (by simp)
  | Except.error _, Except.ok _ => isFalse (by simp)
  | Except.ok _, Except.error _ => isFalse (by simp)
  | Except.ok u, Except.ok v => decidable_of_iff (u = v) (by simp)

/-- DB.read for one file (lines 135-175): record `refile` on the first
call, skip files shorter than 9 lines, compute the header, install it if
none is recorded yet, otherwise abort fatally on mismatch, then expand
and append the data rows. -/
def readF (st : RState) (f : FileIn) : Except ReadErr RState :=
  let st := if st.refile = none then { st with refile := some f.name } else st
  match f with
  | FileIn.short _ => Except.ok st
  | FileIn.wf name m =>
    let hdr := computedHdr m
    if st.hdr = [] then
      match ingestLines m with
      | some rows => Except.ok { st with hdr := hdr, data := st.data ++ rows }
      | none => Except.error ReadErr.badLine
    else if st.hdr ≠ hdr then
      Except.error (ReadErr.mismatch name (st.refile.getD name)
        (hdr.toFinset \ st.hdr.toFinset) (st.hdr.toFinset \ hdr.toFinset))
    else
      match ingestLines m with
      | some rows => Except.ok { st with data := st.data ++ rows }
      | none => Except.error ReadErr.badLine

/-- Multi-file ingestion: the constructor's `for f in files: self.read(f)`
(lines 126-127) starting from the empty state. -/
def ingest (files : List FileIn) : Except ReadErr RState :=
  files.foldlM readF ⟨[], none, []⟩

example :
    ingest [FileIn.wf "a.txt" ⟨[("k", 1)], [("e", false)], [9], [Line.data [5], Line.data [7], Line.comment, Line.data [3]]⟩] =
    Except.ok ⟨["k", "e"], some "a.txt", [[1, 5], [1, 7]]⟩ := by
  with_unfolding_all decide
example :
    ingest [FileIn.wf "a.txt" ⟨[], [("e", true)], [5, 6], [Line.data [10, 20]]⟩] =
    Except.ok ⟨["e", "device"], some "a.txt", [[10, 0], [20, 1]]⟩ := by
  with_unfolding_all decide

/-- Claim C10: bucketize applied to a 2-column Table with zero rows
returns the empty point list and does not fail: the boundary list
degenerates to the single position `[0]`, so the final loop runs zero
times and no quantile or mean (whose failure on an empty slice is `none`
in this model) is ever evaluated. -/
theorem bucketize_empty (kind : AggKind) :
    bucketize? [] kind = some [] ∧ boundaries? [] = some [0] := by
  constructor <;> with_unfolding_all rfl

/-- Claim C2, counterexample: at x = 100 and y = 100.7 the code
(`farenough`, and hence the coalescing walk of `bucketize`) merges the two
values into one bucket, although their difference 0.7 exceeds the
threshold `max(1e-4, ((x+y)/2)/200) ≈ 0.5` stated by the claim, which
therefore predicts they are kept as separate bucket seeds. -/
theorem coalesce_claim_cex :
    coalesce [100, 1007/10] = [100]
    ∧ specFarenough (1007/10) 100 = true
    ∧ farenough (1007/10) 100 = false := by
  refine ⟨?_, ?_, ?_⟩ <;> with_unfolding_all decide

/-- Claim C2 amended: in the coalescing walk a next value y is merged into
the previous kept value p's bucket exactly when y - p is at most
`max(1e-4, (p+y)/200)`, i.e. the absolute floor is 1e-4 and the relative
part is the average of the two values divided by 100 (half the threshold
the claim stated); equivalently p < y are kept as separate seeds iff
`y - p > max(1e-4, (p+y)/200)`. -/
theorem coalesce_far_iff (p y : ℚ) (h : p < y) :
    (coalesce [p, y] = [p, y] ↔ y - p > max (1/10000) ((p + y)/200))
    ∧ (coalesce [p, y] = [p] ↔ y - p ≤ max (1/10000) ((p + y)/200)) := by
  have habs : |y - p| = y - p := abs_of_pos (by linarith)
  have hfar : farenough y p = true ↔ y - p > max (1/10000) ((p + y)/200) := by
    simp only [farenough, decide_eq_true_eq, habs, add_comm y p]
  have hco : coalesce [p, y] =
      p :: (if farenough y p then y :: coalesceAux y [] else coalesceAux p []) := rfl
  by_cases hc : farenough y p = true
  · rw [hco, if_pos hc]
    refine ⟨⟨fun _ => hfar.mp hc, fun _ => by simp [coalesceAux]⟩,
      ⟨fun he => ?_, fun hle => absurd (hfar.mp hc) (not_lt.mpr hle)⟩⟩
    simp [coalesceAux] at he
  · rw [hco, if_neg hc]
    have hle : y - p ≤ max (1/10000) ((p + y)/200) :=
      not_lt.mp (fun hgt => hc (hfar.mpr hgt))
    refine ⟨⟨fun he => ?_, fun hgt => absurd hgt (not_lt.mpr hle)⟩,
      ⟨fun _ => hle, fun _ => by simp [coalesceAux]⟩⟩
    simp [coalesceAux] at he

/-- Witness for `coalesce_far_iff` at p = 0, y = 1. -/
theorem coalesce_far_iff_witness :
    ((0 : ℚ) < 1)
    ∧ ((coalesce [0, 1] = [0, 1] ↔ (1 : ℚ) - 0 > max (1/10000) ((0 + 1)/200))
      ∧ (coalesce [0, 1] = [0] ↔ (1 : ℚ) - 0 ≤ max (1/10000) ((0 + 1)/200))) :=
  ⟨by norm_num, coalesce_far_iff 0 1 (by norm_num)⟩

/-- Claim C9, counterexample: `bucketize` sorts `self.data` in place
(line 220), so after the call the table's own rows are reordered: on the
table with rows [(2,0),(1,0)] the post-state is [(1,0),(2,0)]. -/
theorem bucketize_mutates_cex :
    (bucketizeRun [(2, 0), (1, 0)] AggKind.m).2 = [(1, 0), (2, 0)]
    ∧ ([((1 : ℚ), (0 : ℚ)), (2, 0)] ≠ [((2 : ℚ), (0 : ℚ)), (1, 0)]) := by
  refine ⟨?_, ?_⟩ <;> with_unfolding_all decide

/-- Claim C9 amended: `split` and `filter` do not write to the receiver
(they only append to fresh tables), but `bucketize` first sorts
`self.data` in place by (x, y); the rows after the call are the
lexicographic sort of the rows before it, a permutation of them (only the
order changes, and only for `bucketize`). -/
theorem tableOps_frame (db : DB) (F : List Filt) (vars : List String)
    (data : List (ℚ × ℚ)) (kind : AggKind) :
    (db.filterRun F).2 = db
    ∧ (db.splitRun vars).2 = db
    ∧ (bucketizeRun data kind).2 = data.mergeSort rowLe
    ∧ ((bucketizeRun data kind).2).Perm data :=
  ⟨rfl, rfl, rfl, List.mergeSort_perm data rowLe⟩

/-- Claim C6, counterexample: `qnt` on the non-empty list [1, -1] (mean
zero) leaves the accumulator untouched: `error` returns early when
`El2 == 0`, so neither the sum nor the call count changes, contradicting
the claimed increment "for all input lists without exception". -/
theorem qntErr_always_counts_cex :
    qntErr [1, -1] ([], 0) = ([], 0) ∧ (0 : ℕ) ≠ 0 + 1 := by
  have h : avg [1, -1] = 0 := by norm_num [avg]
  refine ⟨?_, by norm_num⟩
  simp [qntErr, errAcc, h]

/-- Claim C6 amended: a quantile or mean computation over a list with
non-zero mean appends `max(Vl/mean² - 1, 0)` (with `Vl` the mean square,
so the radicand equals `variance/mean²`, not `variance/mean² - 1`) to the
accumulator, its real value growing by the square root of that radicand,
and increments the call count by one; when the mean is zero the
accumulator is left entirely unchanged. -/
theorem qntErr_spec (l : List ℚ) (g : List ℚ × ℕ) :
    (avg l = 0 → qntErr l g = g)
    ∧ (avg l ≠ 0 →
        qntErr l g =
          (g.1 ++ [max ((avg (l.map (fun x => x^2)) - (avg l)^2) / (avg l)^2) 0], g.2 + 1)
        ∧ gErrValue (qntErr l g) =
          gErrValue g +
            Real.sqrt ((max ((avg (l.map (fun x => x^2)) - (avg l)^2) / (avg l)^2) 0 : ℚ) : ℝ)) := by
  constructor
  · intro h
    simp [qntErr, errAcc, h]
  · intro h
    have h2 : (avg l)^2 ≠ 0 := pow_ne_zero _ h
    have hrad : avg (l.map (fun x => x^2)) / (avg l)^2 - 1 =
        (avg (l.map (fun x => x^2)) - (avg l)^2) / (avg l)^2 := by
      field_simp
    have he : qntErr l g =
        (g.1 ++ [max ((avg (l.map (fun x => x^2)) - (avg l)^2) / (avg l)^2) 0], g.2 + 1) := by
      simp [qntErr, errAcc, h2, hrad]
    refine ⟨he, ?_⟩
    rw [he]
    simp [gErrValue]

/-- Witness for `qntErr_spec`: the zero-mean case at [1, -1] and the
non-zero case at [1, 3]. -/
theorem qntErr_spec_witness :
    (avg [1, -1] = 0 ∧ qntErr [1, -1] ([], 0) = ([], 0))
    ∧ (avg [1, 3] ≠ 0 ∧ qntErr [1, 3] ([], 0) =
        ([max ((avg ([1, 3].map (fun x => x^2)) - (avg [1, 3])^2) / (avg [1, 3])^2) 0], 0 + 1)) := by
  have h0 : avg [1, -1] = 0 := by norm_num [avg]
  have h3 : avg ([1, 3] : List ℚ) ≠ 0 := by norm_num [avg]
  exact ⟨⟨h0, (qntErr_spec [1, -1] ([], 0)).1 h0⟩,
    ⟨h3, ((qntErr_spec [1, 3] ([], 0)).2 h3).1⟩⟩

/-- Antisymmetry instance needed by the `List.min?`/`List.max?`
characterisations. -/
instance : Std.Antisymm (fun (a b : ℚ) => a ≤ b) where
  antisymm h h' := le_antisymm h h'

/-- The sort performed by `l.sort()` is sorted for the ≤ order. -/
theorem mergeSort_sorted_le (l : List ℚ) : (l.mergeSort qle).Pairwise (· ≤ ·) := by
  have h := @List.sorted_mergeSort ℚ qle
    (fun a b c hab hbc => by
      simp only [qle, decide_eq_true_eq] at hab hbc ⊢; linarith)
    (fun a b => by
      simp only [qle, Bool.or_eq_true, decide_eq_true_eq]; exact le_total a b) l
  exact h.imp (fun hab => by simpa [qle] using hab)

/-- In a sorted list every element is at most the last one. -/
theorem sorted_le_getLast :
    ∀ (s : List ℚ), s.Pairwise (· ≤ ·) → ∀ (h : s ≠ []) (b : ℚ), b ∈ s → b ≤ s.getLast h := by
  intro s
  induction s with
  | nil => intro _ h; exact absurd rfl h
  | cons a as ih =>
    intro hp h b hb
    cases as with
    | nil =>
      simp only [List.mem_singleton] at hb
      simp [hb, List.getLast]
    | cons c cs =>
      rw [List.getLast_cons (by simp)]
      rcases List.mem_cons.mp hb with rfl | hb2
      · exact (List.pairwise_cons.mp hp).1 _ (List.getLast_mem (by simp))
      · exact ih (List.pairwise_cons.mp hp).2 (by simp) b hb2

/-- Branch-level evaluation of `qnt` for a numeric quantile on a
non-empty list. -/
theorem qnt_q_eval (l : List ℚ) (v : ℚ) (h : ¬ l.length = 0) :
    qnt l (AggKind.q v) =
      (if (l.length : ℚ) * v ≤ 1/2 then (l.mergeSort qle).head?
       else if (l.length : ℚ) - 1/2 ≤ (l.length : ℚ) * v then (l.mergeSort qle).getLast?
       else do
         let i : ℕ := (⌊(l.length : ℚ) * v - 1/2⌋).toNat
         let f : ℚ := (l.length : ℚ) * v - 1/2 - (i : ℚ)
         let a ← (l.mergeSort qle).get? i
         let b ← (l.mergeSort qle).get? (i+1)
         pure (a * (1 - f) + b * f)) := by
  simp only [qnt, if_neg h]

/-- Claim C5: for every non-empty list, `qnt(l, 0)` is the minimum,
`qnt(l, 1)` is the maximum, and on an odd-length list `qnt(l, 0.5)` is
exactly the middle element of the sorted list. -/
theorem qnt_boundaries (l : List ℚ) (h : l ≠ []) :
    qnt l (AggKind.q 0) = l.min?
    ∧ qnt l (AggKind.q 1) = l.max?
    ∧ (l.length % 2 = 1 → qnt l (AggKind.q (1/2)) = (l.mergeSort qle).get? (l.length / 2)) := by
  have hlen : ¬ l.length = 0 := by simpa using h
  have hperm : (l.mergeSort qle).Perm l := List.mergeSort_perm l qle
  have hsorted := mergeSort_sorted_le l
  have hslen : (l.mergeSort qle).length = l.length := hperm.length_eq
  have hsne : l.mergeSort qle ≠ [] := by
    intro h0
    rw [h0] at hslen
    exact hlen hslen.symm
  obtain ⟨a, as, ha⟩ := List.exists_cons_of_ne_nil hsne
  refine ⟨?_, ?_, ?_⟩
  · -- q = 0: first branch, head of the sorted list, which is the minimum
    rw [qnt_q_eval l 0 hlen, if_pos (by norm_num), ha, List.head?_cons]
    symm
    rw [List.min?_eq_some_iff (fun a => le_refl a) (fun a b => min_choice a b)
      (fun a b c => le_min_iff)]
    constructor
    · exact hperm.subset (by simp [ha])
    · intro b hb
      have hbs : b ∈ a :: as := by rw [← ha]; exact hperm.mem_iff.mpr hb
      rcases List.mem_cons.mp hbs with rfl | hb2
      · exact le_refl _
      · rw [ha] at hsorted
        exact (List.pairwise_cons.mp hsorted).1 b hb2
  · -- q = 1: second branch, last of the sorted list, which is the maximum
    have hn1 : (1 : ℚ) ≤ (l.length : ℚ) := by
      exact_mod_cast Nat.one_le_iff_ne_zero.mpr hlen
    rw [qnt_q_eval l 1 hlen, if_neg (by rw [mul_one]; exact not_le.mpr (by linarith)),
      if_pos (by rw [mul_one]; linarith), List.getLast?_eq_getLast _ hsne]
    symm
    rw [List.max?_eq_some_iff (fun a => le_refl a) (fun a b => max_choice a b)
      (fun a b c => max_le_iff)]
    constructor
    · exact hperm.subset (List.getLast_mem hsne)
    · intro b hb
      exact sorted_le_getLast _ hsorted hsne b (hperm.mem_iff.mpr hb)
  · -- q = 1/2 on odd length: the middle element, exactly
    intro hodd
    by_cases hk0 : l.length / 2 = 0
    · -- the one-element list
      have h1 : l.length = 1 := by omega
      rw [qnt_q_eval l (1/2) hlen, if_pos (by rw [h1]; norm_num), ha, hk0, List.head?_cons]
      rfl
    · have hk1 : 1 ≤ l.length / 2 := Nat.one_le_iff_ne_zero.mpr hk0
      have hnk : l.length = 2 * (l.length / 2) + 1 := by omega
      have hcast : (l.length : ℚ) = 2 * ((l.length / 2 : ℕ) : ℚ) + 1 := by
        exact_mod_cast hnk
      have hkq : (1 : ℚ) ≤ ((l.length / 2 : ℕ) : ℚ) := by exact_mod_cast hk1
      have hmid : (l.length : ℚ) * (1/2) - 1/2 = ((l.length / 2 : ℕ) : ℚ) := by
        rw [hcast]; ring
      have hfloor : (⌊(l.length : ℚ) * (1/2) - 1/2⌋) = ((l.length / 2 : ℕ) : ℤ) := by
        rw [hmid, Int.floor_natCast]
      obtain ⟨x, hx⟩ : ∃ x, (l.mergeSort qle).get? (l.length / 2) = some x :=
        ⟨_, List.get?_eq_get (by rw [hslen]; omega)⟩
      obtain ⟨y, hy⟩ : ∃ y, (l.mergeSort qle).get? (l.length / 2 + 1) = some y :=
        ⟨_, List.get?_eq_get (by rw [hslen]; omega)⟩
      rw [qnt_q_eval l (1/2) hlen,
        if_neg (by rw [hcast]; exact not_le.mpr (by linarith)),
        if_neg (by rw [hcast]; exact not_le.mpr (by linarith))]
      simp only [hmid, Int.floor_natCast, Int.toNat_natCast, hx, hy,
        Option.bind_eq_bind, Option.some_bind, sub_self]
      norm_num

/-- Witness for `qnt_boundaries` at the concrete list [3, 1, 2]. -/
theorem qnt_boundaries_witness :
    (([3, 1, 2] : List ℚ) ≠ [])
    ∧ (qnt [3, 1, 2] (AggKind.q 0) = ([3, 1, 2] : List ℚ).min?
      ∧ qnt [3, 1, 2] (AggKind.q 1) = ([3, 1, 2] : List ℚ).max?
      ∧ (([3, 1, 2] : List ℚ).length % 2 = 1 →
          qnt [3, 1, 2] (AggKind.q (1/2)) =
            (([3, 1, 2] : List ℚ).mergeSort qle).get? (([3, 1, 2] : List ℚ).length / 2))) :=
  ⟨by simp, qnt_boundaries [3, 1, 2] (by simp)⟩

/-- Rows surviving a successful filtering pass all test `true`, and
re-filtering them succeeds and is the identity. -/
theorem rowsFilter?_sound (p : List ℚ → Option Bool) :
    ∀ (l out : List (List ℚ)), rowsFilter? p l = some out →
      (∀ r ∈ out, p r = some true) ∧ rowsFilter? p out = some out := by
  intro l
  induction l with
  | nil =>
    intro out hout
    have : out = [] := by simpa [rowsFilter?] using hout.symm
    subst this
    exact ⟨by simp, rfl⟩
  | cons r rs ih =>
    intro out hout
    cases hb : p r with
    | none => simp [rowsFilter?, hb] at hout
    | some b =>
      cases hrest : rowsFilter? p rs with
      | none => simp [rowsFilter?, hb, hrest] at hout
      | some rest =>
        have hout' : (if b then r :: rest else rest) = out := by
          simpa [rowsFilter?, hb, hrest] using hout
        obtain ⟨hmem, hidem⟩ := ih rest hrest
        cases b with
        | false =>
          simp only [if_neg Bool.false_ne_true] at hout'
          subst hout'
          exact ⟨hmem, hidem⟩
        | true =>
          simp only [if_pos rfl] at hout'
          subst hout'
          refine ⟨?_, ?_⟩
          · intro q hq
            rcases List.mem_cons.mp hq with rfl | hq2
            · exact hb
            · exact hmem _ hq2
          · simp [rowsFilter?, hb, hidem]

/-- A successful plain-header construction records exactly the given
header (and no rows). -/
theorem mkDB?_hdr (files : List String) (t : DB) (h : mkDB? files = some t) :
    t = ⟨files, []⟩ := by
  cases files with
  | nil => simp [mkDB?] at h
  | cons f fs =>
    simp only [mkDB?, List.head?_cons] at h
    by_cases he : f.endsWith ".txt" = true
    · rw [if_pos he] at h; cases h
    · rw [if_neg he] at h
      exact (Option.some.injEq _ _).mp h.symm

/-- Claim C8: with no output-column projection, filtering twice with the
same filter list gives exactly the result of filtering once (including
all failure modes: if the first pass fails, so does the composition). -/
theorem filter_idempotent (db : DB) (F : List Filt) :
    (db.filter? F).bind (fun t => t.filter? F) = db.filter? F := by
  by_cases hF : F = []
  · subst hF
    simp [DB.filter?]
  · cases hres : db.filter? F with
    | none => rfl
    | some t =>
      show t.filter? F = some t
      cases hp : compileAll? F db.hdr with
      | none => simp [DB.filter?, if_neg hF, hp] at hres
      | some p =>
        cases hdb : mkDB? db.hdr with
        | none => simp [DB.filter?, if_neg hF, hp, hdb] at hres
        | some res0 =>
          cases hrows : rowsFilter? p db.data with
          | none => simp [DB.filter?, if_neg hF, hp, hdb, hrows] at hres
          | some rows =>
            have ht : t = { res0 with data := rows } := by
              have := hres
              simp only [DB.filter?, if_neg hF, hp, hdb, hrows, Option.bind_eq_bind,
                Option.some_bind] at this
              exact ((Option.some.injEq _ _).mp this).symm
            have hres0 : res0 = ⟨db.hdr, []⟩ := mkDB?_hdr _ _ hdb
            subst hres0
            rw [ht]
            simp only [DB.filter?, if_neg hF, hp, hdb,
              (rowsFilter?_sound p db.data rows hrows).2, Option.bind_eq_bind,
              Option.some_bind]
            rfl

/-- Rows of all groups of a split dictionary, in dictionary order. -/
def flatRows (d : List (List ℚ × DB)) : List (List ℚ) :=
  d.flatMap (fun g => g.2.data)

/-- A list whose elements are fixed by a function is fixed by `map`. -/
theorem map_eq_self_of_forall {α : Type} (l : List α) (f : α → α)
    (h : ∀ x ∈ l, f x = x) : l.map f = l := by
  induction l with
  | nil => rfl
  | cons a as ih =>
    simp only [List.map_cons, h a (by simp)]
    rw [ih (fun x hx => h x (by simp [hx]))]

/-- Reading every position of a list with `getD` reproduces the list. -/
theorem range_map_getD {α : Type} (l : List α) (d : α) :
    (List.range l.length).map (fun i => l.getD i d) = l := by
  induction l with
  | nil => rfl
  | cons a as ih =>
    rw [List.length_cons, List.range_succ_eq_map, List.map_cons, List.map_map]
    have h2 : ((fun i => (a :: as).getD i d) ∘ Nat.succ) = fun i => as.getD i d := by
      funext i
      simp [Function.comp, List.getD_cons_succ]
    rw [List.getD_cons_zero, h2, ih]

/-- Splitting on no columns removes no columns. -/
theorem hdrsOf_nil (hdr : List String) : hdrsOf hdr [] = hdr := by
  have h : ncolOf hdr [] = List.range hdr.length := by
    simp [ncolOf, colsOf, List.filter_eq_self]
  rw [hdrsOf, h, range_map_getD]

/-- Projecting a well-formed row along no grouping columns is the
identity. -/
theorem projRow_nil (hdr : List String) (r : List ℚ) (h : r.length = hdr.length) :
    projRow hdr [] r = r := by
  have hn : ncolOf hdr [] = List.range hdr.length := by
    simp [ncolOf, colsOf, List.filter_eq_self]
  rw [projRow, hn, ← h, range_map_getD]

/-- Appending one projected row to the dictionary adds exactly that row to
the multiset of all group rows and preserves the group headers. -/
theorem addRow_sound (hdrs : List String) (x y : List ℚ) :
    ∀ (d d' : List (List ℚ × DB)), addRow hdrs x y d = some d' →
      (∀ g ∈ d, g.2.hdr = hdrs) →
      ((flatRows d' : Multiset (List ℚ)) = ↑(flatRows d) + {y})
        ∧ (∀ g ∈ d', g.2.hdr = hdrs) := by
  intro d
  induction d with
  | nil =>
    intro d' hd' _
    cases ht : mkDB? hdrs with
    | none => rw [addRow, ht] at hd'; cases hd'
    | some t =>
      have hteq := mkDB?_hdr _ _ ht
      subst hteq
      rw [addRow, ht] at hd'
      have : d' = [(x, ⟨hdrs, [y]⟩)] := by
        simpa [Option.map] using hd'.symm
      subst this
      constructor
      · simp [flatRows]
      · intro g hg
        simp only [List.mem_singleton] at hg
        subst hg
        rfl
  | cons kt rest ih =>
    intro d' hd' hhdr
    obtain ⟨k, t⟩ := kt
    by_cases hk : k = x
    · rw [addRow, if_pos hk] at hd'
      have : d' = (k, { t with data := t.data ++ [y] }) :: rest := by
        simpa using hd'.symm
      subst this
      constructor
      · show ((t.data ++ [y]) ++ flatRows rest : Multiset (List ℚ)) =
          ↑(t.data ++ flatRows rest) + {y}
        simp only [← Multiset.coe_add, Multiset.coe_singleton]
        abel
      · intro g hg
        rcases List.mem_cons.mp hg with rfl | hg2
        · exact hhdr (k, t) (by simp)
        · exact hhdr g (by simp [hg2])
    · rw [addRow, if_neg hk] at hd'
      cases hrest : addRow hdrs x y rest with
      | none => rw [hrest] at hd'; cases hd'
      | some r' =>
        rw [hrest] at hd'
        have : d' = (k, t) :: r' := by simpa [Option.map] using hd'.symm
        subst this
        obtain ⟨hm, hh⟩ := ih r' hrest (fun g hg => hhdr g (by simp [hg]))
        constructor
        · show (t.data ++ flatRows r' : Multiset (List ℚ)) =
            ↑(t.data ++ flatRows rest) + {y}
          simp only [← Multiset.coe_add]
          rw [hm]
          abel
        · intro g hg
          rcases List.mem_cons.mp hg with rfl | hg2
          · exact hhdr (k, t) (by simp)
          · exact hh g hg2

/-- The split row loop: a successful fold collects exactly the projected
rows (as a multiset) on top of the starting dictionary, and every group
header is the projected header. -/
theorem splitRows_sound (hdr vars hdrs : List String) :
    ∀ (rows : List (List ℚ)) (d0 d : List (List ℚ × DB)),
      rows.foldlM (fun d r => addRow hdrs (keyRow hdr vars r) (projRow hdr vars r) d) d0 =
        some d →
      (∀ g ∈ d0, g.2.hdr = hdrs) →
      ((flatRows d : Multiset (List ℚ)) =
          ↑(flatRows d0) + ↑(rows.map (projRow hdr vars)))
        ∧ (∀ g ∈ d, g.2.hdr = hdrs) := by
  intro rows
  induction rows with
  | nil =>
    intro d0 d hd hh
    have : d0 = d := by simpa [List.foldlM] using hd
    subst this
    exact ⟨by simp, hh⟩
  | cons r rs ih =>
    intro d0 d hd hh
    rw [List.foldlM_cons] at hd
    cases ha : addRow hdrs (keyRow hdr vars r) (projRow hdr vars r) d0 with
    | none => rw [ha] at hd; cases hd
    | some d1 =>
      rw [ha] at hd
      obtain ⟨hm1, hh1⟩ := addRow_sound _ _ _ _ _ ha hh
      obtain ⟨hm2, hh2⟩ := ih d1 d hd hh1
      refine ⟨?_, hh2⟩
      rw [hm2, hm1]
      simp only [List.map_cons, ← Multiset.cons_coe, ← Multiset.singleton_add]
      abel

/-- When the fresh-table constructor succeeds on the projected header,
adding a row to the dictionary always succeeds. -/
theorem addRow_isSome (hdrs : List String) (hok : (mkDB? hdrs).isSome = true)
    (x y : List ℚ) : ∀ d, (addRow hdrs x y d).isSome = true := by
  intro d
  induction d with
  | nil =>
    obtain ⟨t, ht⟩ := Option.isSome_iff_exists.mp hok
    simp [addRow, ht]
  | cons kt rest ih =>
    obtain ⟨k, t⟩ := kt
    by_cases hk : k = x
    · simp [addRow, hk]
    · obtain ⟨r', hr'⟩ := Option.isSome_iff_exists.mp ih
      simp [addRow, hk, hr']

/-- The split row loop always succeeds when the fresh-table constructor
succeeds on the projected header. -/
theorem splitRows_isSome (hdr vars hdrs : List String)
    (hok : (mkDB? hdrs).isSome = true) :
    ∀ (rows : List (List ℚ)) (d0 : List (List ℚ × DB)),
      (rows.foldlM
        (fun d r => addRow hdrs (keyRow hdr vars r) (projRow hdr vars r) d) d0).isSome =
        true := by
  intro rows
  induction rows with
  | nil => intro d0; simp [List.foldlM]
  | cons r rs ih =>
    intro d0
    rw [List.foldlM_cons]
    obtain ⟨d1, hd1⟩ := Option.isSome_iff_exists.mp
      (addRow_isSome hdrs hok (keyRow hdr vars r) (projRow hdr vars r) d0)
    rw [hd1]
    simpa using ih d1

/-- Claim C4 amended: for every Table with well-formed rows and every
grouping list, provided the grouping does not exhaust the header in a way
the implementation cannot represent (the plain-header constructor must
succeed on the remaining header: it must be non-empty with a first name
not ending in '.txt'), unless the grouping list or the row list is empty:
`split` succeeds, the multiset union of the rows over all groups equals
the original rows projected along the removal of the grouping columns,
and each group's header is the original header minus the grouping
columns. -/
theorem split_complete (db : DB) (vars : List String)
    (hr : ∀ r ∈ db.data, r.length = db.hdr.length)
    (hok : vars = [] ∨ db.data = [] ∨ (mkDB? (hdrsOf db.hdr vars)).isSome = true) :
    ∃ sets d, db.split? vars = some (sets, d)
      ∧ (d.flatMap (fun g => g.2.data)).Perm (db.data.map (projRow db.hdr vars))
      ∧ ∀ g ∈ d, g.2.hdr = hdrsOf db.hdr vars := by
  by_cases hv : vars = []
  · subst hv
    refine ⟨[], [([], db)], by simp [DB.split?], ?_, ?_⟩
    · have hmap : db.data.map (projRow db.hdr []) = db.data :=
        map_eq_self_of_forall _ _ (fun r hrm => projRow_nil _ _ (hr r hrm))
      rw [hmap]
      simp
    · intro g hg
      simp only [List.mem_singleton] at hg
      subst hg
      exact (hdrsOf_nil db.hdr).symm
  · have hsome : (splitRows? db.hdr vars (hdrsOf db.hdr vars) db.data).isSome = true := by
      rcases hok with h | h | h
      · exact absurd h hv
      · rw [splitRows?, h]; simp [List.foldlM]
      · exact splitRows_isSome db.hdr vars _ h db.data []
    obtain ⟨d, hd⟩ := Option.isSome_iff_exists.mp hsome
    obtain ⟨hm, hh⟩ :=
      splitRows_sound db.hdr vars (hdrsOf db.hdr vars) db.data [] d hd (by simp)
    refine ⟨setsOf db vars, d, ?_, ?_, hh⟩
    · simp [DB.split?, if_neg hv, hd]
    · rw [← Multiset.coe_eq_coe]
      show (flatRows d : Multiset (List ℚ)) = ↑(db.data.map (projRow db.hdr vars))
      simpa [flatRows] using hm
  

/-- Claim C4, counterexample: grouping a one-row table by all of its
columns makes `split` construct `DB([])` for the first row's group; the
constructor evaluates `files[0]` on the empty remaining header and raises
IndexError, so no group mapping is produced at all even though every
grouping name is present in the header. -/
theorem split_allcols_cex :
    (DB.mk ["a", "b"] [[1, 2]]).split? ["a", "b"] = none
    ∧ ([[(1 : ℚ), 2]] : List (List ℚ)) ≠ [] := by
  constructor
  · with_unfolding_all rfl
  · simp

/-- Witness for `split_complete` on a concrete two-column table grouped by
its first column. -/
theorem split_complete_witness :
    (∀ r ∈ (DB.mk ["t", "e"] [[0, 5], [1, 7], [0, 9]]).data,
        r.length = (DB.mk ["t", "e"] [[0, 5], [1, 7], [0, 9]]).hdr.length)
    ∧ (∃ sets d,
        (DB.mk ["t", "e"] [[0, 5], [1, 7], [0, 9]]).split? ["t"] = some (sets, d)
        ∧ (d.flatMap (fun g => g.2.data)).Perm
            ((DB.mk ["t", "e"] [[0, 5], [1, 7], [0, 9]]).data.map
              (projRow (DB.mk ["t", "e"] [[0, 5], [1, 7], [0, 9]]).hdr ["t"]))
        ∧ ∀ g ∈ d,
            g.2.hdr = hdrsOf (DB.mk ["t", "e"] [[0, 5], [1, 7], [0, 9]]).hdr ["t"]) :=
  ⟨by simp, split_complete _ _ (by simp)
    (Or.inr (Or.inr (by with_unfolding_all decide)))⟩

/-- After a successful `read` call the recorded first file is set. -/
theorem readF_ok_refile (st : RState) (f : FileIn) (st' : RState)
    (h : readF st f = Except.ok st') : ∃ r, st'.refile = some r := by
  unfold readF at h
  by_cases hr : st.refile = none
  · rw [if_pos hr] at h
    cases f with
    | short n =>
      cases h
      exact ⟨n, rfl⟩
    | wf n m =>
      simp only at h
      split at h
      · split at h
        · cases h; exact ⟨n, rfl⟩
        · cases h
      · split at h
        · cases h
        · split at h
          · cases h; exact ⟨n, rfl⟩
          · cases h
  · rw [if_neg hr] at h
    obtain ⟨r, hr'⟩ := Option.ne_none_iff_exists'.mp hr
    refine ⟨r, ?_⟩
    cases f with
    | short n => cases h; exact hr'
    | wf n m =>
      simp only at h
      split at h
      · split at h
        · cases h; exact hr'
        · cases h
      · split at h
        · cases h
        · split at h
          · cases h; exact hr'
          · cases h

/-- A successful multi-file ingestion that recorded a header also recorded
a first file name. -/
theorem ingest_ok_refile :
    ∀ (files : List FileIn) (st0 st : RState),
      files.foldlM readF st0 = Except.ok st →
      st = st0 ∨ ∃ r, st.refile = some r := by
  intro files
  induction files with
  | nil =>
    intro st0 st h
    left
    simpa [List.foldlM, pure, Except.pure] using h.symm
  | cons f rest ih =>
    intro st0 st h
    rw [List.foldlM_cons] at h
    cases hf : readF st0 f with
    | error e => rw [hf] at h; cases h
    | ok st1 =>
      rw [hf] at h
      right
      rcases ih st1 st h with rfl | hex
      · exact readF_ok_refile st0 f st hf
      · exact hex

/-- Claim C7 amended: during multi-file ingestion, when the header
computed from a file differs from the recorded header, `read` aborts the
whole run (no table state is produced and the remaining files are never
read) with a fatal report naming the mismatching file and the first file
passed to `read` (`self.refile`; this is the first successfully-read file
whenever no too-short skipped file precedes it), together with the two
set differences of the header sets, whose union is the symmetric
difference; when the headers are equal, ingestion continues normally with
the file's expanded rows appended. -/
theorem read_mismatch (pre : List FileIn) (name : String) (m : FileModel) (st : RState)
    (hpre : ingest pre = Except.ok st) (hne : st.hdr ≠ []) :
    ∃ r, st.refile = some r
      ∧ (computedHdr m ≠ st.hdr →
          ∀ post, ingest (pre ++ FileIn.wf name m :: post) =
            Except.error (ReadErr.mismatch name r
              ((computedHdr m).toFinset \ st.hdr.toFinset)
              (st.hdr.toFinset \ (computedHdr m).toFinset)))
      ∧ (computedHdr m = st.hdr →
          ∀ post rows, ingestLines m = some rows →
            ingest (pre ++ FileIn.wf name m :: post) =
              post.foldlM readF { st with data := st.data ++ rows }) := by
  obtain ⟨r, hrf⟩ : ∃ r, st.refile = some r := by
    rcases ingest_ok_refile pre ⟨[], none, []⟩ st hpre with rfl | hex
    · exact absurd rfl hne
    · exact hex
  have hstep : ∀ post, ingest (pre ++ FileIn.wf name m :: post) =
      (readF st (FileIn.wf name m)).bind (fun st1 => post.foldlM readF st1) := by
    intro post
    simp only [ingest] at hpre ⊢
    rw [List.foldlM_append, hpre]
    simp only [List.foldlM_cons]
    rfl
  refine ⟨r, hrf, ?_, ?_⟩
  · intro hm post
    rw [hstep post]
    have hrd : readF st (FileIn.wf name m) = Except.error (ReadErr.mismatch name r
        ((computedHdr m).toFinset \ st.hdr.toFinset)
        (st.hdr.toFinset \ (computedHdr m).toFinset)) := by
      have hm' : st.hdr ≠ computedHdr m := Ne.symm hm
      simp [readF, hrf, hne, hm']
    rw [hrd]
    rfl
  · intro he post rows hrows
    rw [hstep post]
    have hrd : readF st (FileIn.wf name m) =
        Except.ok { st with data := st.data ++ rows } := by
      simp [readF, hrf, hne, he, hrows]
    rw [hrd]
    rfl

/-- A one-aggregate-column file whose header is ["x"]. -/
def fileX : FileModel := ⟨[], [("x", false)], [1], []⟩

/-- A one-aggregate-column file whose header is ["y"]. -/
def fileY : FileModel := ⟨[], [("y", false)], [1], []⟩

/-- The ingestion state after successfully reading `fileX` (preceded by a
too-short file named "s.txt" in the counterexample, alone in the
witness). -/
def stX : RState := ⟨["x"], some "a.txt", []⟩

/-- Claim C7, counterexample: `self.refile` is recorded on the very first
`read` call, before the too-short check, so when the first file is
shorter than 9 lines the mismatch report names that skipped file
("s.txt") rather than the first successfully-read file ("a.txt") whose
header was recorded. -/
theorem read_refile_cex :
    ingest [FileIn.short "s.txt", FileIn.wf "a.txt" fileX, FileIn.wf "b.txt" fileY] =
      Except.error (ReadErr.mismatch "b.txt" "s.txt" {"y"} {"x"})
    ∧ ("s.txt" : String) ≠ "a.txt" := by
  constructor
  · with_unfolding_all decide
  · decide

/-- Witness for `read_mismatch`: one well-formed file read, then a file
with a different header. -/
theorem read_mismatch_witness :
    (ingest [FileIn.wf "a.txt" fileX] = Except.ok stX)
    ∧ stX.hdr ≠ []
    ∧ (∃ r, stX.refile = some r
      ∧ (computedHdr fileY ≠ stX.hdr →
          ∀ post,
            ingest ([FileIn.wf "a.txt" fileX] ++ FileIn.wf "b.txt" fileY :: post) =
              Except.error (ReadErr.mismatch "b.txt" r
                ((computedHdr fileY).toFinset \ stX.hdr.toFinset)
                (stX.hdr.toFinset \ (computedHdr fileY).toFinset)))
      ∧ (computedHdr fileY = stX.hdr →
          ∀ post rows, ingestLines fileY = some rows →
            ingest ([FileIn.wf "a.txt" fileX] ++ FileIn.wf "b.txt" fileY :: post) =
              post.foldlM readF { stX with data := stX.data ++ rows })) :=
  ⟨by with_unfolding_all decide, by with_unfolding_all decide,
    read_mismatch _ "b.txt" fileY _ (by with_unfolding_all decide)
      (by with_unfolding_all decide)⟩

/-- Option `mapM` with a pointwise-successful function is `map`. -/
theorem mapM_eq_some_of_forall {α β : Type} (f : α → Option β) (g : α → β) :
    ∀ (l : List α), (∀ a ∈ l, f a = some (g a)) → l.mapM f = some (l.map g) := by
  intro l
  induction l with
  | nil => intro _; rfl
  | cons a as ih =>
    intro h
    rw [List.mapM_cons, h a (by simp), ih (fun b hb => h b (by simp [hb]))]
    rfl

/-- Entry `i` of the offset scan is the starting offset plus the sum of
the widths of the first `i` columns. -/
theorem scanl_step_getD (dn : ℤ) :
    ∀ (ks : List Bool) (acc : ℤ) (i : ℕ), i ≤ ks.length →
      ((ks.scanl (fun a c => a + (if c then dn else 1)) acc).getD i 0) =
        acc + (((ks.take i).map (fun c => if c then dn else 1)).sum) := by
  intro ks
  induction ks with
  | nil =>
    intro acc i hi
    have : i = 0 := by simpa using hi
    subst this
    simp [List.scanl]
  | cons c cs ih =>
    intro acc i hi
    cases i with
    | zero => simp [List.scanl]
    | succ j =>
      rw [List.scanl]
      simp only [List.getD_cons_succ, List.take_succ_cons, List.map_cons, List.sum_cons]
      rw [ih (acc + (if c then dn else 1)) j (by simpa using hi)]
      ring

/-- Total width of all columns: aggregate columns occupy one slot each,
per-device columns `devnum` slots each. -/
theorem widths_sum (dn : ℤ) :
    ∀ (ks : List Bool),
      ((ks.map (fun c => if c then dn else 1)).sum) =
        ((ks.filter (fun c => !c)).length : ℤ) + dn * ((ks.filter id).length : ℤ) := by
  intro ks
  induction ks with
  | nil => simp
  | cons c cs ih =>
    cases c <;> simp [ih] <;> ring

/-- Filtering the kind flags counts the per-device and aggregate
columns. -/
theorem bool_filter_counts :
    ∀ (cs : List (String × Bool)),
      ((cs.map (fun c => c.2)).filter id).length = (cs.filter (fun c => c.2)).length
      ∧ ((cs.map (fun c => c.2)).filter (fun c => !c)).length =
          cs.length - (cs.filter (fun c => c.2)).length := by
  intro cs
  induction cs with
  | nil => simp
  | cons c cs ih =>
    obtain ⟨h1, h2⟩ := ih
    have hle := List.length_filter_le (fun c => c.2) cs
    rcases c with ⟨s, b⟩
    cases b
    · simp [h1, h2, List.filter_cons]
      omega
    · simp [h1, h2, List.filter_cons]

/-- The per-device count of the kind list is `cdev`, and the aggregate
count is `cagg`. -/
theorem kind_counts (m : FileModel) :
    ((m.cols.map (fun c => c.2)).filter id).length = cdev m
    ∧ ((m.cols.map (fun c => c.2)).filter (fun c => !c)).length = cagg m :=
  bool_filter_counts m.cols

/-- Offsets are non-negative and leave room for their column's full
width inside the total span `cagg + devnum * cdev`. -/
theorem offset_bound (m : FileModel) (hdn : 0 ≤ devnum m) (i : ℕ) (hi : i < ctot m) :
    0 ≤ (indexL m).getD i 0
    ∧ (indexL m).getD i 0 +
        (if (m.cols.getD i ("", false)).2 then devnum m else 1) ≤
      (cagg m : ℤ) + devnum m * (cdev m : ℤ) := by
  have hks : (m.cols.map (fun c => c.2)).length = ctot m := by simp [ctot]
  have hwnn : ∀ (L : List Bool), ∀ x ∈ L.map (fun c => if c then devnum m else 1), 0 ≤ x := by
    intro L x hx
    obtain ⟨c, _, hcx⟩ := List.mem_map.mp hx
    cases c <;> simp at hcx <;> omega
  have hoff : ∀ j, j ≤ ctot m → (indexL m).getD j 0 =
      (((m.cols.map (fun c => c.2)).take j).map
        (fun c => if c then devnum m else 1)).sum := by
    intro j hj
    rw [indexL, scanl_step_getD (devnum m) _ 0 j (by rw [hks]; exact hj), zero_add]
  obtain ⟨c, hc⟩ : ∃ c, m.cols[i]? = some c := ⟨_, List.getElem?_eq_getElem hi⟩
  have hgd : m.cols.getD i ("", false) = c := by
    rw [List.getD_eq_getElem?_getD, hc]
    rfl
  have hstep : (indexL m).getD i 0 +
      (if (m.cols.getD i ("", false)).2 then devnum m else 1) =
      (indexL m).getD (i+1) 0 := by
    rw [hoff i (le_of_lt hi), hoff (i+1) hi, List.take_succ]
    have hkc : (m.cols.map (fun x => x.2))[i]? = some c.2 := by
      rw [List.getElem?_map, hc]
      rfl
    rw [hkc, hgd]
    simp [List.sum_append]
  have htot : (indexL m).getD (i+1) 0 ≤ (cagg m : ℤ) + devnum m * (cdev m : ℤ) := by
    rw [hoff (i+1) hi]
    have hsplit : ((m.cols.map (fun c => c.2)).map
        (fun c => if c then devnum m else 1)).sum =
        (((m.cols.map (fun c => c.2)).take (i+1)).map
          (fun c => if c then devnum m else 1)).sum +
        (((m.cols.map (fun c => c.2)).drop (i+1)).map
          (fun c => if c then devnum m else 1)).sum := by
      conv_lhs => rw [← List.take_append_drop (i+1) (m.cols.map (fun c => c.2))]
      rw [List.map_append, List.sum_append]
    have hdnn : 0 ≤ (((m.cols.map (fun c => c.2)).drop (i+1)).map
        (fun c => if c then devnum m else 1)).sum :=
      List.sum_nonneg (hwnn _)
    have htots := widths_sum (devnum m) (m.cols.map (fun c => c.2))
    rw [(kind_counts m).1, (kind_counts m).2] at htots
    omega
  constructor
  · rw [hoff i (le_of_lt hi)]
    exact List.sum_nonneg (hwnn _)
  · omega

/-- In-range `get?` as a defaulted read. -/
theorem get?_eq_some_getD {α : Type} (l : List α) (n : ℕ) (d : α) (h : n < l.length) :
    l.get? n = some (l.getD n d) := by
  rw [List.get?_eq_getElem?, List.getD_eq_getElem?_getD, List.getElem?_eq_getElem h]
  rfl

/-- The expansion of one well-formed data line succeeds and produces one
row per device slot; each row starts with the parameter values, ends with
the device index, and reads its aggregate columns at the device-independent
offsets. -/
theorem expandLine_sound (m : FileModel) (xs : List ℚ)
    (hdev : 1 ≤ cdev m) (hfa : cagg m ≤ m.row8.length)
    (hxs : xs.length = m.row8.length) :
    ∃ rs, expandLine m xs = some rs ∧ rs.length = (devnum m).toNat
      ∧ ∀ d, d < (devnum m).toNat →
          ∃ row, rs.get? d = some row
            ∧ row.length = (computedHdr m).length
            ∧ row.take m.params.length = m.params.map (fun p => p.2)
            ∧ row.getLast? = some ((d : ℚ))
            ∧ ∀ i, i < ctot m → (m.cols.getD i ("", false)).2 = false →
                row.get? (m.params.length + i) = getZ xs ((indexL m).getD i 0) := by
  have hcne : cdev m ≠ 0 := by omega
  have hfz : 0 ≤ (m.row8.length : ℤ) - (cagg m : ℤ) := by
    have h := hfa
    omega
  have hcpos : (0 : ℤ) < (cdev m : ℤ) := by exact_mod_cast hdev
  have hediv : devnum m = ((m.row8.length : ℤ) - (cagg m : ℤ)) / (cdev m : ℤ) := by
    rw [devnum, if_neg hcne, Int.fdiv_eq_ediv _ (le_of_lt hcpos)]
  have hdn0 : 0 ≤ devnum m := by
    rw [hediv]
    exact Int.ediv_nonneg hfz (le_of_lt hcpos)
  have hS : (cagg m : ℤ) + devnum m * (cdev m : ℤ) ≤ (m.row8.length : ℤ) := by
    have h1 := Int.emod_nonneg ((m.row8.length : ℤ) - (cagg m : ℤ)) (ne_of_gt hcpos)
    have h2 := Int.ediv_add_emod ((m.row8.length : ℤ) - (cagg m : ℤ)) ((cdev m : ℤ))
    have h3 : ((m.row8.length : ℤ) - (cagg m : ℤ)) / (cdev m : ℤ) * (cdev m : ℤ)
        = (cdev m : ℤ) * (((m.row8.length : ℤ) - (cagg m : ℤ)) / (cdev m : ℤ)) :=
      mul_comm _ _
    rw [hediv]
    linarith
  have hidx : ∀ (d : ℕ), (d : ℤ) < devnum m → ∀ i, i < ctot m →
      0 ≤ (indexL m).getD i 0 +
          (d : ℤ) * (if (m.cols.getD i ("", false)).2 then 1 else 0)
      ∧ ((indexL m).getD i 0 +
          (d : ℤ) * (if (m.cols.getD i ("", false)).2 then 1 else 0)).toNat
          < xs.length := by
    intro d hd i hi
    obtain ⟨h0, hstep⟩ := offset_bound m hdn0 i hi
    have hxl : (xs.length : ℤ) = (m.row8.length : ℤ) := by exact_mod_cast hxs
    cases hc : (m.cols.getD i ("", false)).2 with
    | false =>
      simp only [hc] at hstep ⊢
      simp only [Bool.false_eq_true, if_false, mul_zero, add_zero] at hstep ⊢
      omega
    | true =>
      simp only [hc] at hstep ⊢
      simp only [if_true, mul_one] at hstep ⊢
      omega
  refine ⟨(List.range (devnum m).toNat).map (fun (d : ℕ) =>
      m.params.map (fun p => p.2) ++
        ((List.range (ctot m)).map (fun i =>
          xs.getD ((indexL m).getD i 0 +
            (d : ℤ) * (if (m.cols.getD i ("", false)).2 then 1 else 0)).toNat 0) ++
        [(d : ℚ)])), ?_, by simp, ?_⟩
  · rw [expandLine]
    apply mapM_eq_some_of_forall
    intro d hd
    have hdk : (d : ℤ) < devnum m := by
      have hlt := List.mem_range.mp hd
      omega
    have hinner : (List.range (ctot m)).mapM (valAt m xs d) =
        some ((List.range (ctot m)).map (fun i =>
          xs.getD ((indexL m).getD i 0 +
            (d : ℤ) * (if (m.cols.getD i ("", false)).2 then 1 else 0)).toNat 0)) := by
      apply mapM_eq_some_of_forall
      intro i hi
      have hi' : i < ctot m := List.mem_range.mp hi
      obtain ⟨hge, hlt⟩ := hidx d hdk i hi'
      rw [valAt, getZ, if_pos hge]
      exact get?_eq_some_getD xs _ 0 hlt
    rw [hinner]
    simp [hcne]
  · intro d hd
    refine ⟨m.params.map (fun p => p.2) ++
        ((List.range (ctot m)).map (fun i =>
          xs.getD ((indexL m).getD i 0 +
            (d : ℤ) * (if (m.cols.getD i ("", false)).2 then 1 else 0)).toNat 0) ++
        [(d : ℚ)]), ?_, ?_, ?_, ?_, ?_⟩
    · rw [List.get?_eq_getElem?, List.getElem?_map]
      rw [show (List.range (devnum m).toNat)[d]? = some d by simp [List.getElem?_range, hd]]
      rfl
    · simp [computedHdr, hcne, ctot]
    · exact List.take_left' (by simp)
    · rw [← List.append_assoc]
      exact List.getLast?_concat _
    · intro i hi hagg
      have hdk : (d : ℤ) < devnum m := by omega
      obtain ⟨hge, hlt⟩ := hidx d hdk i hi
      rw [List.get?_eq_getElem?, List.getElem?_append_right (by simp), List.length_map]
      rw [show m.params.length + i - m.params.length = i from by omega]
      rw [List.getElem?_append, if_pos (by simp [hi]), List.getElem?_map]
      rw [show (List.range (ctot m))[i]? = some i by simp [List.getElem?_range, hi]]
      simp only [hagg] at hge hlt ⊢
      simp only [Bool.false_eq_true, if_false, mul_zero, add_zero] at hge hlt ⊢
      rw [getZ, if_pos hge, get?_eq_some_getD xs _ 0 hlt]
      rw [List.getD_eq_getElem?_getD] at hagg
      simp [hagg]

/-- The data loop over well-formed lines succeeds and appends exactly
`devnum` rows per data line before the first '#' line. -/
theorem ingestGo_count (m : FileModel)
    (hdev : 1 ≤ cdev m) (hfa : cagg m ≤ m.row8.length) :
    ∀ (ls : List Line), (∀ l ∈ ls.takeWhile isData, lineOk m.row8.length l) →
      ∃ rows, ingestGo m ls = some rows
        ∧ rows.length = (ls.takeWhile isData).length * (devnum m).toNat := by
  intro ls
  induction ls with
  | nil => intro _; exact ⟨[], rfl, by simp⟩
  | cons l rest ih =>
    intro hok
    cases l with
    | comment =>
      refine ⟨[], rfl, ?_⟩
      simp [List.takeWhile_cons, isData]
    | data xs =>
      have hmem : Line.data xs ∈ (Line.data xs :: rest).takeWhile isData := by
        simp [List.takeWhile_cons, isData]
      have hxs : xs.length = m.row8.length := by
        have h := hok (Line.data xs) hmem
        simpa [lineOk] using h
      obtain ⟨rs, hrs, hlenrs, _⟩ := expandLine_sound m xs hdev hfa hxs
      obtain ⟨more, hmore, hmlen⟩ := ih (fun l hl => hok l (by
        simp only [List.takeWhile_cons, isData, if_pos] at *
        simp [hl]))
      refine ⟨rs ++ more, ?_, ?_⟩
      · rw [ingestGo, hrs, hmore]
        rfl
      · simp only [List.length_append, hlenrs, hmlen, List.takeWhile_cons, isData,
          if_pos, List.length_cons]
        ring

/-- Claim C3: for a file with d >= 1 per-device columns, f floats on the
first data row and a aggregate columns, the computed device count is
k = (f - a) / d (and k = 1 whenever d = 0); ingesting the file's n data
rows before the first '#' line appends exactly n * k table rows, and each
of the k rows expanded from one data line has full header width, shares
the parameter values and the aggregate values (read at device-independent
offsets) and carries its device index in the final device column. -/
theorem read_rowcount (m : FileModel)
    (hdev : 1 ≤ cdev m)
    (hfa : cagg m ≤ m.row8.length)
    (hlen : ∀ l ∈ m.lines.takeWhile isData, lineOk m.row8.length l) :
    devnum m = ((m.row8.length - cagg m) / cdev m : ℕ)
    ∧ (∀ mm : FileModel, cdev mm = 0 → devnum mm = 1)
    ∧ (∃ rows, ingestLines m = some rows
        ∧ rows.length = numData m * (devnum m).toNat)
    ∧ (∀ xs, Line.data xs ∈ m.lines.takeWhile isData →
        ∃ rs, expandLine m xs = some rs ∧ rs.length = (devnum m).toNat
          ∧ ∀ d, d < (devnum m).toNat →
              ∃ row, rs.get? d = some row
                ∧ row.length = (computedHdr m).length
                ∧ row.take m.params.length = m.params.map (fun p => p.2)
                ∧ row.getLast? = some ((d : ℚ))
                ∧ ∀ i, i < ctot m → (m.cols.getD i ("", false)).2 = false →
                    row.get? (m.params.length + i) = getZ xs ((indexL m).getD i 0)) := by
  refine ⟨?_, ?_, ?_, ?_⟩
  · have hcne : cdev m ≠ 0 := by omega
    have hcpos : (0 : ℤ) < (cdev m : ℤ) := by exact_mod_cast hdev
    rw [devnum, if_neg hcne, Int.fdiv_eq_ediv _ (le_of_lt hcpos)]
    rw [show (m.row8.length : ℤ) - (cagg m : ℤ) =
      ((m.row8.length - cagg m : ℕ) : ℤ) from by omega]
    rfl
  · intro mm h
    rw [devnum, if_pos h]
  · exact ingestGo_count m hdev hfa m.lines hlen
  · intro xs hxs
    have hx : xs.length = m.row8.length := by
      have h := hlen (Line.data xs) hxs
      simpa [lineOk] using h
    exact expandLine_sound m xs hdev hfa hx

/-- A concrete file for the `read_rowcount` witness: one parameter, one
aggregate column, one per-device column, first data row of 4 floats
(device count 3), one ingested data line before the '#' line. -/
def fileW : FileModel :=
  ⟨[("p", 2)], [("a", false), ("v", true)], [9, 1, 2, 3],
    [Line.data [7, 10, 20, 30], Line.comment, Line.data [99]]⟩

/-- Witness for `read_rowcount` at `fileW`. -/
theorem read_rowcount_witness :
    (1 ≤ cdev fileW)
    ∧ (cagg fileW ≤ fileW.row8.length)
    ∧ (∀ l ∈ fileW.lines.takeWhile isData, lineOk fileW.row8.length l)
    ∧ (devnum fileW = ((fileW.row8.length - cagg fileW) / cdev fileW : ℕ)
      ∧ (∀ mm : FileModel, cdev mm = 0 → devnum mm = 1)
      ∧ (∃ rows, ingestLines fileW = some rows
          ∧ rows.length = numData fileW * (devnum fileW).toNat)
      ∧ (∀ xs, Line.data xs ∈ fileW.lines.takeWhile isData →
          ∃ rs, expandLine fileW xs = some rs ∧ rs.length = (devnum fileW).toNat
            ∧ ∀ d, d < (devnum fileW).toNat →
                ∃ row, rs.get? d = some row
                  ∧ row.length = (computedHdr fileW).length
                  ∧ row.take fileW.params.length = fileW.params.map (fun p => p.2)
                  ∧ row.getLast? = some ((d : ℚ))
                  ∧ ∀ i, i < ctot fileW → (fileW.cols.getD i ("", false)).2 = false →
                      row.get? (fileW.params.length + i) =
                        getZ xs ((indexL fileW).getD i 0))) :=
  ⟨by decide, by decide, by with_unfolding_all decide,
    read_rowcount fileW (by decide) (by decide) (by with_unfolding_all decide)⟩

/-- The coalescing walk keeps a subsequence of its input. -/
theorem coalesceAux_sublist (last : ℚ) :
    ∀ (l : List ℚ), List.Sublist (coalesceAux last l) l := by
  intro l
  induction l generalizing last with
  | nil => simp [coalesceAux]
  | cons x xs ih =>
    rw [coalesceAux]
    by_cases h : farenough x last = true
    · rw [if_pos h]
      exact List.Sublist.cons₂ x (ih x)
    · rw [if_neg h]
      exact List.Sublist.cons x (ih last)

/-- coalesce keeps a subsequence, so at most as many seeds as distinct
values. -/
theorem coalesce_sublist : ∀ (l : List ℚ), List.Sublist (coalesce l) l := by
  intro l
  cases l with
  | nil => simp [coalesce]
  | cons x xs => exact List.Sublist.cons₂ x (coalesceAux_sublist x xs)

/-- When consecutive distinct values are all far enough apart, nothing is
coalesced. -/
theorem coalesceAux_all_far (last : ℚ) :
    ∀ (l : List ℚ), List.Chain (fun p q => farenough q p = true) last l →
      coalesceAux last l = l := by
  intro l
  induction l generalizing last with
  | nil => intro _; rfl
  | cons x xs ih =>
    intro hch
    rcases List.chain_cons.mp hch with ⟨h1, h2⟩
    rw [coalesceAux, if_pos h1, ih x h2]

/-- coalesce is the identity on a chain of pairwise-far-enough values. -/
theorem coalesce_all_far (l : List ℚ)
    (h : List.Chain' (fun p q => farenough q p = true) l) : coalesce l = l := by
  cases l with
  | nil => rfl
  | cons x xs =>
    rw [coalesce, coalesceAux_all_far x xs h]

/-- A pointwise-weaker predicate keeps a take-while prefix at least as
long. -/
theorem takeWhile_length_mono {α : Type} (p q : α → Bool)
    (h : ∀ a, p a = true → q a = true) :
    ∀ (l : List α), (l.takeWhile p).length ≤ (l.takeWhile q).length := by
  intro l
  induction l with
  | nil => simp
  | cons a as ih =>
    by_cases hp : p a = true
    · rw [List.takeWhile_cons, if_pos hp, List.takeWhile_cons, if_pos (h a hp)]
      simpa using ih
    · simp [List.takeWhile_cons, hp]

/-- The binary-search position of a seed is monotone in the seed. -/
theorem bl_mono (sd : List (ℚ × ℚ)) (x y : ℚ) (hxy : x ≤ y) :
    bl sd x ≤ bl sd y := by
  apply takeWhile_length_mono
  intro r hr
  simp only [decide_eq_true_eq] at hr ⊢
  linarith

/-- The binary-search position never exceeds the row count. -/
theorem bl_le_length (sd : List (ℚ × ℚ)) (x : ℚ) : bl sd x ≤ sd.length :=
  List.Sublist.length_le (List.takeWhile_sublist _)

/-- Averages of separated non-empty lists are ordered. -/
theorem avg_le_avg (A B : List ℚ) (hA : A ≠ []) (hB : B ≠ [])
    (h : ∀ a ∈ A, ∀ b ∈ B, a ≤ b) : avg A ≤ avg B := by
  obtain ⟨c, hc⟩ : ∃ c, B.min? = some c := by
    cases B with
    | nil => exact absurd rfl hB
    | cons b bs => exact ⟨_, rfl⟩
  have hcB : c ∈ B ∧ ∀ b ∈ B, c ≤ b := by
    rw [List.min?_eq_some_iff (fun a => le_refl a) (fun a b => min_choice a b)
      (fun a b c => le_min_iff)] at hc
    exact hc
  have hlA : (0 : ℚ) < (A.length : ℚ) := by
    have : A.length ≠ 0 := by simpa using hA
    exact_mod_cast Nat.pos_of_ne_zero this
  have hlB : (0 : ℚ) < (B.length : ℚ) := by
    have : B.length ≠ 0 := by simpa using hB
    exact_mod_cast Nat.pos_of_ne_zero this
  have h1 : avg A ≤ c := by
    rw [avg, div_le_iff₀ hlA]
    have : A.sum ≤ A.length • c := List.sum_le_card_nsmul A c (fun a ha => h a ha c hcB.1)
    simpa [nsmul_eq_mul, mul_comm] using this
  have h2 : c ≤ avg B := by
    rw [avg, le_div_iff₀ hlB]
    have : B.length • c ≤ B.sum := List.card_nsmul_le_sum B c hcB.2
    simpa [nsmul_eq_mul, mul_comm] using this
  linarith

/-- Success and value of the mean computation. -/
theorem qnt_mean_eq (l : List ℚ) (x : ℚ) (h : qnt l AggKind.m = some x) :
    l ≠ [] ∧ x = avg l := by
  by_cases hl : l.length = 0
  · rw [qnt, if_pos hl] at h
    cases h
  · rw [qnt, if_neg hl] at h
    refine ⟨by simpa using hl, ?_⟩
    exact ((Option.some.injEq _ _).mp h).symm

/-- The sorted row list is sorted in its first components. -/
theorem mergeSort_rowLe_fst_le (data : List (ℚ × ℚ)) :
    (data.mergeSort rowLe).Pairwise (fun p q => p.1 ≤ q.1) := by
  have h := @List.sorted_mergeSort (ℚ × ℚ) rowLe
    (fun a b c hab hbc => by
      simp only [rowLe, decide_eq_true_eq] at hab hbc ⊢
      rcases hab with h1 | ⟨h1, h2⟩ <;> rcases hbc with h3 | ⟨h3, h4⟩
      · exact Or.inl (lt_trans h1 h3)
      · exact Or.inl (h3 ▸ h1)
      · exact Or.inl (h1 ▸ h3)
      · exact Or.inr ⟨h1.trans h3, h2.trans h4⟩)
    (fun a b => by
      simp only [rowLe, Bool.or_eq_true, decide_eq_true_eq]
      rcases lt_trichotomy a.1 b.1 with h | h | h
      · exact Or.inl (Or.inl h)
      · rcases le_total a.2 b.2 with h2 | h2
        · exact Or.inl (Or.inr ⟨h, h2⟩)
        · exact Or.inr (Or.inr ⟨h.symm, h2⟩)
      · exact Or.inr (Or.inl h)) data
  exact h.imp (fun hab => by
    simp only [rowLe, decide_eq_true_eq] at hab
    rcases hab with h1 | ⟨h1, _⟩
    · exact le_of_lt h1
    · exact le_of_eq h1)

/-- In a fst-sorted row list, every element of an earlier slice is below
every element of a later slice. -/
theorem slice_pairwise_le (sd : List (ℚ × ℚ))
    (hs : sd.Pairwise (fun p q => p.1 ≤ q.1)) (a b c : ℕ) :
    ∀ u ∈ (sd.drop a).take (b - a), ∀ v ∈ (sd.drop b).take c, u.1 ≤ v.1 := by
  intro u hu v hv
  have hu' : u ∈ sd.take b := by
    rw [← List.drop_take] at hu
    exact List.drop_subset _ _ hu
  have hv' : v ∈ sd.drop b := List.take_subset _ _ hv
  have hs2 : (sd.take b ++ sd.drop b).Pairwise (fun p q => p.1 ≤ q.1) := by
    rw [List.take_append_drop]
    exact hs
  exact (List.pairwise_append.mp hs2).2.2 u hu' v hv'

/-- The final loop of `bucketize` over a monotone boundary list: one point
per consecutive boundary pair, x-representatives in non-decreasing order,
and the first point's x is the mean of the first slice's x values. -/
theorem bucketsGo_spec (sd : List (ℚ × ℚ)) (kind : AggKind)
    (hs : sd.Pairwise (fun p q => p.1 ≤ q.1)) :
    ∀ (bs : List ℕ) (a : ℕ) (res : List (ℚ × ℚ)),
      List.Chain' (fun u v => u ≤ v) (a :: bs) →
      bucketsGo sd kind a bs = some res →
      res.length = bs.length
      ∧ List.Chain' (fun p q => p.1 ≤ q.1) res
      ∧ (∀ b bs2, bs = b :: bs2 → ∀ p ps, res = p :: ps →
          ((sd.drop a).take (b - a)).map Prod.fst ≠ []
          ∧ p.1 = avg (((sd.drop a).take (b - a)).map Prod.fst)) := by
  intro bs
  induction bs with
  | nil =>
    intro a res _ hres
    have : res = [] := by simpa [bucketsGo] using hres.symm
    subst this
    exact ⟨rfl, List.chain'_nil, fun b bs2 hb => by cases hb⟩
  | cons b rest ih =>
    intro a res hch hres
    rw [bucketsGo] at hres
    cases hx : qnt (((sd.drop a).take (b - a)).map Prod.fst) AggKind.m with
    | none => rw [hx] at hres; cases hres
    | some x =>
      cases hy : qnt (((sd.drop a).take (b - a)).map Prod.snd) kind with
      | none => rw [hx, hy] at hres; cases hres
      | some y =>
        cases hr : bucketsGo sd kind b rest with
        | none => rw [hx, hy, hr] at hres; cases hres
        | some r =>
          rw [hx, hy, hr] at hres
          have hres' : res = (x, y) :: r := by
            simpa using hres.symm
          subst hres'
          obtain ⟨hxne, hxavg⟩ := qnt_mean_eq _ _ hx
          obtain ⟨hlen, hchain, hhead⟩ := ih b r hch.tail hr
          have hab : a ≤ b := (List.chain'_cons.mp hch).1
          refine ⟨by simp [hlen], ?_, ?_⟩
          · cases rest with
            | nil =>
              have : r = [] := List.length_eq_zero.mp (by simp [hlen])
              subst this
              simp
            | cons c rest2 =>
              cases r with
              | nil => simp
              | cons p ps =>
                obtain ⟨hne2, hp1⟩ := hhead c rest2 rfl p ps rfl
                refine List.chain'_cons.mpr ⟨?_, hchain⟩
                show x ≤ p.1
                rw [hxavg, hp1]
                apply avg_le_avg _ _ hxne hne2
                intro u hu v hv
                obtain ⟨pu, hpu, rfl⟩ := List.mem_map.mp hu
                obtain ⟨pv, hpv, rfl⟩ := List.mem_map.mp hv
                exact slice_pairwise_le sd hs a b (c - b) pu hpu pv hpv
          · intro b' bs2 hb p ps hp
            injection hb with hb1 hb2
            injection hp with hp1 hp2
            subst hb1
            rw [← hp1]
            exact ⟨hxne, hxavg⟩

/-- Each successful compression step appends exactly one boundary, keeps
the boundary list strictly increasing, and only appends candidate
positions taken from `ix`. -/
theorem compressStep_sound (n : ℕ) (ix : List ℕ) (l0 : List ℕ) (i : ℕ) (l1 : List ℕ)
    (h : compressStep n ix l0 i = some l1) :
    ∃ v last, l1 = l0 ++ [v] ∧ l0.getLast? = some last ∧ last < v ∧ v ∈ ix := by
  rw [compressStep] at h
  cases h1 : ix.get? (max (blN ix (i * n / BUCKETS)) 1 - 1) with
  | none => rw [h1] at h; cases h
  | some il =>
    cases h2 : ix.get? (max (blN ix (i * n / BUCKETS)) 1) with
    | none => rw [h1, h2] at h; cases h
    | some ir =>
      cases h3 : l0.getLast? with
      | none => rw [h1, h2, h3] at h; cases h
      | some last =>
        rw [h1, h2, h3] at h
        have h4 : (if last < ir then
            some (l0 ++ [if last < il ∧
              (i * n / BUCKETS : ℤ) - (il : ℤ) ≤ (ir : ℤ) - (i * n / BUCKETS : ℤ)
              then il else ir])
            else none) = some l1 := h
        by_cases hlt : last < ir
        · rw [if_pos hlt] at h4
          have hl1 : l1 = l0 ++ [if last < il ∧
              (i * n / BUCKETS : ℤ) - (il : ℤ) ≤ (ir : ℤ) - (i * n / BUCKETS : ℤ)
              then il else ir] := by
            simpa using h4.symm
          by_cases hc : last < il ∧
              (i * n / BUCKETS : ℤ) - (il : ℤ) ≤ (ir : ℤ) - (i * n / BUCKETS : ℤ)
          · refine ⟨il, last, ?_, rfl, hc.1, ?_⟩
            · rw [hl1, if_pos hc]
            · exact List.get?_mem h1
          · refine ⟨ir, last, ?_, rfl, hlt, ?_⟩
            · rw [hl1, if_neg hc]
            · exact List.get?_mem h2
        · rw [if_neg hlt] at h4
          cases h4

/-- The compression fold: appends one boundary per iteration, preserves
strict increase, and introduces only positions from `ix`. -/
theorem compress_fold (n : ℕ) (ix : List ℕ) :
    ∀ (is : List ℕ) (l0 l : List ℕ),
      is.foldlM (compressStep n ix) l0 = some l →
      l.length = l0.length + is.length
      ∧ (List.Chain' (fun u v => u < v) l0 → List.Chain' (fun u v => u < v) l)
      ∧ (∀ b ∈ l, b ∈ l0 ∨ b ∈ ix) := by
  intro is
  induction is with
  | nil =>
    intro l0 l h
    have he : l0 = l := by simpa [List.foldlM] using h
    subst he
    exact ⟨by simp, fun hc => hc, fun b hb => Or.inl hb⟩
  | cons i is ih =>
    intro l0 l h
    rw [List.foldlM_cons] at h
    cases hstep : compressStep n ix l0 i with
    | none => rw [hstep] at h; cases h
    | some l1 =>
      rw [hstep] at h
      have h' : is.foldlM (compressStep n ix) l1 = some l := by simpa using h
      obtain ⟨v, last, hl1, hlast, hlv, hvix⟩ := compressStep_sound n ix l0 i l1 hstep
      obtain ⟨hlen, hch, hmem⟩ := ih l1 l h'
      refine ⟨?_, ?_, ?_⟩
      · rw [hlen, hl1]
        simp
        omega
      · intro hc0
        apply hch
        rw [hl1]
        rw [List.chain'_append]
        refine ⟨hc0, by simp, ?_⟩
        intro x hx y hy
        rw [hlast] at hx
        simp only [Option.mem_def, Option.some.injEq] at hx
        simp only [List.head?_cons, Option.mem_def, Option.some.injEq] at hy
        subst hx
        subst hy
        exact hlv
      · intro b hb
        rcases hmem b hb with hbl1 | hbix
        · rw [hl1] at hbl1
          rcases List.mem_append.mp hbl1 with hbl0 | hbv
          · exact Or.inl hbl0
          · simp only [List.mem_singleton] at hbv
            subst hbv
            exact Or.inr hvix
        · exact Or.inr hbix

/-- The boundary list: `t + 1` positions when the `t` coalesced seeds are
used directly (t < 2*BUCKETS), `BUCKETS + 1` positions from the
compression loop otherwise; in both cases non-decreasing. -/
theorem boundaries_spec (data : List (ℚ × ℚ)) (L : List ℕ)
    (h : boundaries? data = some L) :
    L.length = (if (coalesce (distinctSorted data)).length < 2*BUCKETS
        then (coalesce (distinctSorted data)).length else BUCKETS) + 1
    ∧ List.Chain' (fun u v => u ≤ v) L := by
  have htmpPW : (coalesce (distinctSorted data)).Pairwise (fun u v => u ≤ v) :=
    (mergeSort_sorted_le ((data.map Prod.fst).dedup)).sublist
      (coalesce_sublist (distinctSorted data))
  have hixPW : ((coalesce (distinctSorted data)).map
      (bl (data.mergeSort rowLe))).Pairwise (fun u v => u ≤ v) := by
    rw [List.pairwise_map]
    exact htmpPW.imp (fun hv => bl_mono _ _ _ hv)
  have hixle : ∀ b ∈ (coalesce (distinctSorted data)).map (bl (data.mergeSort rowLe)),
      b ≤ (data.mergeSort rowLe).length := by
    intro b hb
    obtain ⟨x, _, rfl⟩ := List.mem_map.mp hb
    exact bl_le_length _ x
  rw [boundaries?] at h
  by_cases ht : ((coalesce (distinctSorted data)).map
      (bl (data.mergeSort rowLe))).length < 2*BUCKETS
  · rw [if_pos ht] at h
    have hL : L = (coalesce (distinctSorted data)).map (bl (data.mergeSort rowLe))
        ++ [(data.mergeSort rowLe).length] := by
      simpa using h.symm
    subst hL
    constructor
    · rw [if_pos (by simpa using ht)]
      simp
    · rw [List.chain'_append]
      refine ⟨hixPW.chain', by simp, ?_⟩
      intro x hx y hy
      simp only [List.head?_cons, Option.mem_def, Option.some.injEq] at hy
      subst hy
      exact hixle x (List.mem_of_mem_getLast? hx)
  · rw [if_neg ht] at h
    cases hf : (List.range' 1 (BUCKETS - 1)).foldlM
        (compressStep (data.mergeSort rowLe).length
          ((coalesce (distinctSorted data)).map (bl (data.mergeSort rowLe)))) [0] with
    | none => rw [hf] at h; cases h
    | some lf =>
      rw [hf] at h
      have hL : L = lf ++ [(data.mergeSort rowLe).length] := by simpa using h.symm
      subst hL
      obtain ⟨hlen, hch, hmem⟩ := compress_fold _ _ _ _ _ hf
      have hB : BUCKETS = 50 := rfl
      have hlf : lf.length = BUCKETS := by
        rw [hlen]
        simp only [List.length_cons, List.length_nil]
        have : (List.range' 1 (BUCKETS - 1)).length = BUCKETS - 1 := by simp
        omega
      constructor
      · rw [if_neg (by simpa using ht)]
        simp [hlf]
      · rw [List.chain'_append]
        refine ⟨(hch (by simp)).imp (fun a b hv => le_of_lt hv), by simp, ?_⟩
        intro x hx y hy
        simp only [List.head?_cons, Option.mem_def, Option.some.injEq] at hy
        subst hy
        rcases hmem x (List.mem_of_mem_getLast? hx) with h0 | hix
        · simp only [List.mem_singleton] at h0
          omega
        · exact hixle x hix

/-- Claim C1 amended: whenever `bucketize` returns a result, the number of
points is exactly `t` when `t < 2*BUCKETS` and exactly `BUCKETS`
otherwise, where `t` is the number of coalesced seeds surviving from the
distinct x-values (t is at most the number `m` of distinct x-values, with
t = m when consecutive distinct x-values are pairwise far enough apart);
the points come in non-decreasing x order. In particular the count can
exceed BUCKETS (up to 2*BUCKETS - 1) and can be below min(m, BUCKETS), so
it is not min(m, BUCKETS). -/
theorem bucketize_count (data : List (ℚ × ℚ)) (kind : AggKind) (res : List (ℚ × ℚ))
    (h : bucketize? data kind = some res) :
    res.length = (if (coalesce (distinctSorted data)).length < 2*BUCKETS
        then (coalesce (distinctSorted data)).length else BUCKETS)
    ∧ List.Chain' (fun p q => p.1 ≤ q.1) res
    ∧ (coalesce (distinctSorted data)).length ≤ (distinctSorted data).length
    ∧ (List.Chain' (fun p q => farenough q p = true) (distinctSorted data) →
        coalesce (distinctSorted data) = distinctSorted data) := by
  rw [bucketize?] at h
  cases hb : boundaries? data with
  | none => rw [hb] at h; cases h
  | some L =>
    rw [hb] at h
    have h' : bucketsOf? (data.mergeSort rowLe) kind L = some res := by simpa using h
    obtain ⟨hLlen, hLchain⟩ := boundaries_spec data L hb
    cases L with
    | nil => simp at hLlen
    | cons a bs =>
      rw [bucketsOf?] at h'
      obtain ⟨hrl, hrchain, _⟩ := bucketsGo_spec (data.mergeSort rowLe) kind
        (mergeSort_rowLe_fst_le data) bs a res hLchain h'
      refine ⟨?_, hrchain, ?_, ?_⟩
      · rw [hrl]
        have h2 : (a :: bs).length = (if (coalesce (distinctSorted data)).length
            < 2*BUCKETS then (coalesce (distinctSorted data)).length else BUCKETS)
            + 1 := hLlen
        simpa using h2
      · exact (coalesce_sublist _).length_le
      · exact coalesce_all_far _

/-- Claim C1, counterexample: 51 well-separated distinct x-values
(0, 1, ..., 50) yield 51 coalesced seeds, fewer than 2*BUCKETS, so every
seed becomes a boundary and `bucketize` returns 51 points even though
min(m, BUCKETS) = min 51 50 = 50: both the claimed exact count and the
"never more than BUCKETS points" bound fail. -/
theorem bucketize_min_cex :
    (bucketize? ((List.range 51).map (fun i => ((i : ℚ), 0))) AggKind.m).map List.length
      = some 51
    ∧ (distinctSorted ((List.range 51).map (fun i => ((i : ℚ), 0)))).length = 51
    ∧ 51 ≠ min 51 BUCKETS := by
  refine ⟨?_, ?_, ?_⟩ <;> with_unfolding_all decide

/-- Witness for `bucketize_count` on a concrete two-point table. -/
theorem bucketize_count_witness :
    bucketize? [(0, 5), (1, 7)] AggKind.m = some [(0, 5), (1, 7)]
    ∧ (([(0, 5), (1, 7)] : List (ℚ × ℚ)).length =
        (if (coalesce (distinctSorted [(0, 5), (1, 7)])).length < 2*BUCKETS
          then (coalesce (distinctSorted [(0, 5), (1, 7)])).length else BUCKETS)
      ∧ List.Chain' (fun p q => p.1 ≤ q.1) ([(0, 5), (1, 7)] : List (ℚ × ℚ))
      ∧ (coalesce (distinctSorted [(0, 5), (1, 7)])).length ≤
          (distinctSorted [(0, 5), (1, 7)]).length
      ∧ (List.Chain' (fun p q => farenough q p = true)
            (distinctSorted [(0, 5), (1, 7)]) →
          coalesce (distinctSorted [(0, 5), (1, 7)]) =
            distinctSorted [(0, 5), (1, 7)])) :=
  ⟨by with_unfolding_all decide,
    bucketize_count [(0, 5), (1, 7)] AggKind.m [(0, 5), (1, 7)]
      (by with_unfolding_all decide)⟩
